import Mathlib

/-!
# HESS-SHA256: a verification development of `hess_sha256_apocalypse.cc`

The program is a multi-threaded local search for a byte sequence whose SHA-256
hex digest resembles a target string.  This file embeds its functions in Lean
and proves properties of them.

Conventions of the embedding

* A candidate (`std::vector<unsigned char>`) is a `List Nat` of byte values; a
  store into a byte is written with an explicit `% 256`.
* A fingerprint (`std::size_t`, 64 bits wide) is a `Nat` below `2 ^ 64`; the
  arithmetic of `hashing` carries explicit `% 2 ^ 32` (for `unsigned int`) and
  `% 2 ^ 64`.
* The visited table `db` (`std::map<integer, bool>`) only ever maps a key to
  `true` (line 66), so it is represented by its key set, a `Finset Nat`.
* `int` indices are `Nat`: every index the program produces is non-negative.
* An out-of-bounds vector access (undefined behaviour in C++) reads `0` and
  writes nothing.
-/

namespace HessSha256

/-! ## Globals -/

/-- Line 35: `int base = 127;`. -/
def base : Nat := 127

/-! ## Fingerprint hasher (lines 40-46) -/

/-- One round of the loop body of `hashing` (line 43):
`hash ^= k + 0x9e3779b9 + (hash << 6) + (hash >> 2)`.
`k + 0x9e3779b9` is an `unsigned int` sum, the rest is `std::size_t`. -/
def hash_round (hash k : Nat) : Nat :=
  hash ^^^ (((k + 0x9e3779b9) % 2 ^ 32 + (hash <<< 6) % 2 ^ 64 + (hash >>> 2)) % 2 ^ 64)

/-- Lines 40-46: the fingerprint of a candidate. -/
def hashing (sequence : List Nat) : Nat :=
  sequence.foldl hash_round 0

/-! ## Local transform (lines 48-57) -/

/-- Line 52: `std::swap(bit[a], bit[b])`. -/
def swap (a b : Nat) (bit : List Nat) : List Nat :=
  (bit.set a (bit.getD b 0)).set b (bit.getD a 0)

/-- Line 53: `bit[m] = 32 + (bit[m] + 1) % (base - 32)`, stored into a byte. -/
def bump (m : Nat) (bit : List Nat) : List Nat :=
  bit.set m ((32 + (bit.getD m 0 + 1) % (base - 32)) % 256)

/-- Lines 51-56: the loop `while (a < b) { swap; bump; a++; b--; }`.
The recursion is structural on `b`, which the loop decrements. -/
def step_loop : Nat → Nat → List Nat → List Nat
  | _, 0, bit => bit
  | a, b + 1, bit =>
    if a < b + 1 then
      step_loop (a + 1) b (bump ((a + (b + 1)) / 2) (swap a (b + 1) bit))
    else bit

/-- Lines 48-57: `void step(int i, int j, std::vector<unsigned char> &bit)`. -/
def step (i j : Nat) (bit : List Nat) : List Nat :=
  step_loop (min i j) (max i j) bit

/-! ## Orbit generator (lines 59-76) -/

/-- Lines 64-72, the region between `mutex.lock()` and `mutex.unlock()`:
look the key up, insert it when absent, and tell whether it was inserted. -/
def claim (key : Nat) (db : Finset Nat) : Bool × Finset Nat :=
  if key ∈ db then (false, db) else (true, insert key db)

/-- Line 62: the loop `for (j = 0; j < bit.size(); j++)` over the remaining
values of `j`.  The result is the function's return flag (`true`: line 68 was
reached), the candidate and the table. -/
def orbit_inner (i : Nat) : List Nat → List Nat → Finset Nat → Bool × List Nat × Finset Nat
  | [], bit, db => (false, bit, db)
  | j :: js, bit, db =>
    match claim (hashing bit) db with
    | (true, db') => (true, bit, db')
    | (false, db') => orbit_inner i js (step i j bit) db'

/-- Line 61: the loop `for (i = 0; i < bit.size(); i++)` over the remaining
values of `i`. -/
def orbit_outer : List Nat → List Nat → Finset Nat → Bool × List Nat × Finset Nat
  | [], bit, db => (false, bit, db)
  | i :: is, bit, db =>
    match orbit_inner i (List.range bit.length) bit db with
    | (true, bit', db') => (true, bit', db')
    | (false, bit', db') => orbit_outer is bit' db'

/-- Lines 59-76: `bool next_orbit(std::vector<unsigned char> &bit)` acting on
the global table `db`.  `step` never changes `bit.size()` (`step_length`), so
the loop bounds are those of the candidate at entry. -/
def next_orbit (bit : List Nat) (db : Finset Nat) : Bool × List Nat × Finset Nat :=
  orbit_outer (List.range bit.length) bit db

/-- The bytes of a candidate lie in the printable range `[32, base)`. -/
def printable (bit : List Nat) : Prop :=
  ∀ x ∈ bit, 32 ≤ x ∧ x < base

/-- What a sweep does to the table: on success exactly the fingerprint of the
final candidate, absent before, is added; on failure nothing changes. -/
def orbit_effect (db : Finset Nat) (r : Bool × List Nat × Finset Nat) : Prop :=
  (r.1 = true → hashing r.2.1 ∉ db ∧ r.2.2 = insert (hashing r.2.1) db) ∧
  (r.1 = false → r.2.2 = db)

/-! ## Several workers on one table

The workers share nothing but `db`, and every access to `db` is inside the
lock of lines 64-72, so an execution of the program's `next_orbit` calls is a
sequence of steps, each made by one worker in one call. -/

/-- A `next_orbit` call in progress: its loop counters and the caller's
candidate. -/
structure Call where
  i : Nat
  j : Nat
  bit : List Nat
deriving DecidableEq

/-- One step of a call in progress, containing at most one critical section:
the tests of the two `for` loops and, for a pair `(i, j)` in range, lines
63-72.  The first component is `some ok` when the call returns `ok`. -/
def call_step (c : Call) (db : Finset Nat) : Option Bool × Call × Finset Nat :=
  if c.i < c.bit.length then
    if c.j < c.bit.length then
      match claim (hashing c.bit) db with
      | (true, db') => (some true, c, db')
      | (false, db') => (none, { c with j := c.j + 1, bit := step c.i c.j c.bit }, db')
    else (none, { c with i := c.i + 1, j := 0 }, db)
  else (some false, c, db)

/-- A call run on its own for at most `fuel` steps. -/
def call_run : Nat → Call → Finset Nat → Option (Bool × List Nat × Finset Nat)
  | 0, _, _ => none
  | fuel + 1, c, db =>
    match call_step c db with
    | (some ok, c', db') => some (ok, c'.bit, db')
    | (none, c', db') => call_run fuel c' db'

/-- What the scheduler lets happen next. -/
inductive Event
  /-- Worker `w` calls `next_orbit` on its candidate `bit`. -/
  | call (w : Nat) (bit : List Nat)
  /-- The call of worker `w` makes its next step. -/
  | advance (w : Nat)
deriving DecidableEq

/-- The workers' calls in progress, the shared table, and for every call that
has returned `true` the worker and the fingerprint it inserted. -/
structure Pool where
  calls : Nat → Option Call
  db : Finset Nat
  wins : List (Nat × Nat)

/-- The program before any call: an empty table. -/
def Pool.start : Pool :=
  { calls := fun _ => none, db := ∅, wins := [] }

/-- The effect of one event.  A worker inside a call cannot start another one,
and a worker outside a call has no step to make. -/
def Pool.exec (s : Pool) : Event → Pool
  | Event.call w bit =>
    match s.calls w with
    | none => { s with calls := Function.update s.calls w (some ⟨0, 0, bit⟩) }
    | some _ => s
  | Event.advance w =>
    match s.calls w with
    | none => s
    | some c =>
      match call_step c s.db with
      | (none, c', db') => { s with calls := Function.update s.calls w (some c'), db := db' }
      | (some true, c', db') =>
        { calls := Function.update s.calls w none, db := db',
          wins := s.wins ++ [(w, hashing c'.bit)] }
      | (some false, _, db') => { s with calls := Function.update s.calls w none, db := db' }

/-- The state after a sequence of events. -/
def Pool.run (es : List Event) : Pool :=
  es.foldl Pool.exec Pool.start

/-! ## Digest oracle (lines 78-89)

`picosha2.h` and `std::log` are not part of the program text, so the digest
primitive and the truncated logarithm are parameters of the embedding:

* `digest bit` is the string `picosha2::hash256_hex_string` writes for `bit`;
* `trunc_log n` is the integer part of `std::log(n)`.  The loop counter `i` is
  an `int`, so `i += std::log(hash.size())` stores the truncation of
  `i + log(size)`, which is `i + trunc_log size`.

A `std::string` is a list of bytes, `List (Fin 256)`.  The accumulator `local`
is a `float` that only ever holds non-negative integers; it is a `Nat`, and
each addition rounds to binary32 (`f32_round`).  The bound `global` is a finite
`float`, embedded as a rational number. -/

/-- Integral promotion of a `char` to `int`.  Whether plain `char` is signed
is implementation-defined; `sgn = true` is the signed reading. -/
def promote (sgn : Bool) (c : Fin 256) : Int :=
  if sgn = true ∧ 128 ≤ c.val then (c.val : Int) - 256 else (c.val : Int)

/-- Subscript `s[i]` of a `std::string`.  Within the string it reads the
character, at the end (`i = s.size()`) the terminating zero.  Beyond the end
the subscript is undefined behaviour in C++, and the value `0` given here
stands for no particular behaviour of the program.  The digest primitive
writes 64 characters, so a target of at most 68 characters is sampled within
the digest string; the theorems that cover longer targets and whose conclusion
depends on the value read assume that every position read is at most the
length of the string. -/
def char_at (s : List (Fin 256)) (i : Nat) : Fin 256 :=
  s.getD i 0

/-- Round a natural number to the nearest binary32 value, ties to even.
Below `2 ^ 24` every natural number is a binary32 value.  (Overflow to
infinity, from `2 ^ 128 - 2 ^ 103` on, is not represented: the accumulator of
the oracle never passes `2 ^ 33`, see `oracle_loop_le`.) -/
def f32_round (x : Nat) : Nat :=
  if x < 2 ^ 24 then x
  else
    let ulp := 2 ^ (Nat.log2 x - 23)
    let lo := x / ulp * ulp
    if 2 * (x - lo) < ulp then lo
    else if 2 * (x - lo) = ulp ∧ (x / ulp) % 2 = 0 then lo
    else lo + ulp

/-- The term of line 83: `std::abs(hash[i] - hash_hex_str[i])`. -/
def char_dist (sgn : Bool) (hash hash_hex_str : List (Fin 256)) (i : Nat) : Nat :=
  (promote sgn (char_at hash i) - promote sgn (char_at hash_hex_str i)).natAbs

/-- Line 83: `local += std::abs(hash[i] - hash_hex_str[i])` in `float`. -/
def accumulate (sgn : Bool) (hash hash_hex_str : List (Fin 256)) (i loc : Nat) : Nat :=
  f32_round (loc + char_dist sgn hash hash_hex_str i)

/-- Lines 82-87: the sampling loop, from counter `i` and accumulator `loc`.
`none` means the loop is still running after `fuel` iterations. -/
def oracle_loop (sgn : Bool) (stride : Nat) (hash hash_hex_str : List (Fin 256)) (global : ℚ) :
    Nat → Nat → Nat → Option Nat
  | 0, _, _ => none
  | fuel + 1, i, loc =>
    if i < hash.length then
      let loc' := accumulate sgn hash hash_hex_str i loc
      if global < (loc' : ℚ) then some loc'
      else oracle_loop sgn stride hash hash_hex_str global fuel (i + stride) loc'
    else some loc

/-- Lines 78-89: `float sha256_oracle(bit, hash, hash_hex_str, n, global)`.
The result is the returned `local` together with the buffer `hash_hex_str`
as the call leaves it; the parameter `n` is unused by the source. -/
def sha256_oracle (sgn : Bool) (digest : List Nat → List (Fin 256)) (trunc_log : Nat → Nat)
    (fuel : Nat) (bit : List Nat) (hash : List (Fin 256)) (global : ℚ) :
    Option (Nat × List (Fin 256)) :=
  let hash_hex_str := digest bit
  (oracle_loop sgn (trunc_log hash.length) hash hash_hex_str global fuel 0 0).map
    fun loc => (loc, hash_hex_str)

/-- The binary32 values among the natural numbers: below `2 ^ 24` all of
them, above the multiples of the unit in the last place. -/
def f32_val (x : Nat) : Prop :=
  x < 2 ^ 24 ∨ 2 ^ (Nat.log2 x - 23) ∣ x

/-- The accumulator `local` after `k` samples when the loop is not left
early: the `k`-th running sum. -/
def running (sgn : Bool) (stride : Nat) (hash hash_hex_str : List (Fin 256)) : Nat → Nat
  | 0 => 0
  | k + 1 => accumulate sgn hash hash_hex_str (k * stride) (running sgn stride hash hash_hex_str k)

/-- The number of positions `0, stride, 2 * stride, ...` below `len`, for a
positive stride. -/
def samples (stride len : Nat) : Nat :=
  (len + stride - 1) / stride

/-- The full sampled-sum distance: the accumulator after all the sampled
positions. -/
def full_distance (sgn : Bool) (stride : Nat) (hash hash_hex_str : List (Fin 256)) : Nat :=
  running sgn stride hash hash_hex_str (samples stride hash.length)

/-! ## Hill-climbing driver (lines 91-128) -/

/-- The value of `std::numeric_limits<float>::max()`. -/
def FLT_MAX : Nat := 2 ^ 128 - 2 ^ 104

/-- One line written to `std::cout` (lines 109-119): the worker id, the new
`cursor` and, when `cursor == 0`, the candidate and its digest string.  The
elapsed time is not modelled. -/
structure Report where
  id : Nat
  cursor : Nat
  winner : Option (List Nat × List (Fin 256))
deriving DecidableEq

/-- Control points of `hess`. -/
inductive Phase
  /-- At the test of `while (next_orbit(bit))`, line 96. -/
  | seeking
  /-- About to run the loop body (lines 99-124) for the pair `(i, j)`. -/
  | exploring (i j : Nat)
  /-- After `std::exit(EXIT_SUCCESS)`, line 117. -/
  | exited
  /-- After `next_orbit` returned `false`: `hess` has returned. -/
  | returned
deriving DecidableEq

/-- The local variables of one call of `hess`, with the lines it has printed. -/
structure Worker where
  phase : Phase
  bit : List Nat
  aux : List Nat
  cursor : Nat
  hash_hex_str : List (Fin 256)
  out : List Report
deriving DecidableEq

/-- Which arm of `if (local < global) ... else if (local > global) ...`
(lines 103 and 122) is taken. -/
inductive Branch
  | accept
  | revert
  | neither
deriving DecidableEq

/-- Lines 103 and 122. -/
def branch (loc global : Nat) : Branch :=
  if loc < global then Branch.accept
  else if global < loc then Branch.revert
  else Branch.neither

/-- The control point after the loop body for `(i, j)`: the increments and
tests of the two `for` loops of lines 97-98. -/
def next_pair (n i j : Nat) : Phase :=
  if j + 1 < n then Phase.exploring i (j + 1)
  else if i + 1 < n then Phase.exploring (i + 1) 0
  else Phase.seeking

/-- Lines 99-124: one pair evaluation. -/
def pair_eval (sgn : Bool) (digest : List Nat → List (Fin 256)) (trunc_log : Nat → Nat)
    (hash : List (Fin 256)) (n id fuel i j : Nat) (w : Worker) : Option Worker :=
  let aux := w.bit
  let bit := step i j w.bit
  match sha256_oracle sgn digest trunc_log fuel bit hash (FLT_MAX : ℚ) with
  | none => none
  | some (loc, hex) =>
    match branch loc FLT_MAX with
    | Branch.accept =>
      if loc < w.cursor then
        if loc = 0 then
          some { phase := Phase.exited, bit := bit, aux := aux, cursor := loc,
                 hash_hex_str := hex, out := w.out ++ [⟨id, loc, some (bit, hex)⟩] }
        else
          some { phase := next_pair n i j, bit := bit, aux := aux, cursor := loc,
                 hash_hex_str := hex, out := w.out ++ [⟨id, loc, none⟩] }
      else
        some { phase := next_pair n i j, bit := bit, aux := aux, cursor := w.cursor,
               hash_hex_str := hex, out := w.out }
    | Branch.revert =>
      some { phase := next_pair n i j, bit := aux, aux := aux, cursor := w.cursor,
             hash_hex_str := hex, out := w.out }
    | Branch.neither =>
      some { phase := next_pair n i j, bit := bit, aux := aux, cursor := w.cursor,
             hash_hex_str := hex, out := w.out }

/-- One transition of `hess` on the worker's variables and the shared table.
`none` means the oracle is still running after `fuel` iterations.  The two
final control points have no successor other than themselves. -/
def hess_step (sgn : Bool) (digest : List Nat → List (Fin 256)) (trunc_log : Nat → Nat)
    (hash : List (Fin 256)) (n id fuel : Nat) (w : Worker) (db : Finset Nat) :
    Option (Worker × Finset Nat) :=
  match w.phase with
  | Phase.seeking =>
    match next_orbit w.bit db with
    | (true, bit, db') =>
      some ({ w with bit := bit,
                     phase := if 0 < n then Phase.exploring 0 0 else Phase.seeking }, db')
    | (false, bit, db') => some ({ w with bit := bit, phase := Phase.returned }, db')
  | Phase.exploring i j =>
    (pair_eval sgn digest trunc_log hash n id fuel i j w).map fun w' => (w', db)
  | Phase.exited => some (w, db)
  | Phase.returned => some (w, db)

/-- Lines 92-95: the variables of `hess` at entry. -/
def hess_init (n : Nat) : Worker :=
  { phase := Phase.seeking, bit := List.replicate n 32, aux := [], cursor := FLT_MAX,
    hash_hex_str := [], out := [] }

/-- The first `k` transitions of `hess` when no other worker runs. -/
def hess_run (sgn : Bool) (digest : List Nat → List (Fin 256)) (trunc_log : Nat → Nat)
    (hash : List (Fin 256)) (n id fuel : Nat) : Nat → Worker → Finset Nat →
    Option (Worker × Finset Nat)
  | 0, w, db => some (w, db)
  | k + 1, w, db =>
    match hess_step sgn digest trunc_log hash n id fuel w db with
    | none => none
    | some (w', db') => hess_run sgn digest trunc_log hash n id fuel k w' db'

/-- The states of one worker's `hess` in a run of the whole program: between
two of its transitions the other workers may add fingerprints to the table. -/
inductive Reachable (sgn : Bool) (digest : List Nat → List (Fin 256)) (trunc_log : Nat → Nat)
    (hash : List (Fin 256)) (n id : Nat) : Worker → Finset Nat → Prop
  | start (db : Finset Nat) : Reachable sgn digest trunc_log hash n id (hess_init n) db
  | move {w w' : Worker} {db db' : Finset Nat} (fuel : Nat) :
      Reachable sgn digest trunc_log hash n id w db →
      hess_step sgn digest trunc_log hash n id fuel w db = some (w', db') →
      Reachable sgn digest trunc_log hash n id w' db'
  | others {w : Worker} {db db' : Finset Nat} :
      Reachable sgn digest trunc_log hash n id w db → db ⊆ db' →
      Reachable sgn digest trunc_log hash n id w db'

/-- The score of the one-space candidate against the digest string of `a`
(byte 97), sampled at the positions `0, 4, ..., 60`. -/
def space_score (sgn : Bool) (digest : List Nat → List (Fin 256)) : Nat :=
  ∑ k in Finset.range 16, char_dist sgn (digest [97]) (digest [32]) (4 * k)

/-- The variables of `hess` when it ends on a candidate of length one, having
printed the single report of distance `d`. -/
def length_one_end (digest : List Nat → List (Fin 256)) (id d : Nat) : Worker :=
  { phase := if d = 0 then Phase.exited else Phase.returned, bit := [32], aux := [32],
    cursor := d, hash_hex_str := digest [32],
    out := [⟨id, d, if d = 0 then some ([32], digest [32]) else none⟩] }

/-- A toy digest used in examples: 64 characters, the first taken from the
candidate's first byte. -/
def toy_digest (bit : List Nat) : List (Fin 256) :=
  List.replicate 64 (Fin.ofNat (bit.getD 0 0))

/-! ## Definitions following the specification's wording -/

/-- The mixing step as the specification words it (§4.1):
`hash XOR (byte + constant + (hash << 6) + (hash >> 2))`, in 64 bits. -/
def mix (h byte : Nat) : Nat :=
  h ^^^ ((byte + 0x9e3779b9 + (h <<< 6) + (h >>> 2)) % 2 ^ 64)

/-- The midpoint map of the specification (§4.2):
`32 + (old_value + 1) mod (base - 32)` with `base = 127`. -/
def perturb (v : Nat) : Nat :=
  32 + (v + 1) % 95

/-! ## Notions used in the statements -/

/-- The states a sweep of `next_orbit` passes through when it finds every
fingerprint present: `orbit_state bit 0` is the candidate at entry and state
`k + 1` is `step i j` of state `k` for the `k`-th pair `(i, j) = (k / L, k % L)`
of `[0, L) × [0, L)` in row-major order, `L` the candidate's length. -/
def orbit_state (bit : List Nat) : Nat → List Nat
  | 0 => bit
  | k + 1 => step (k / bit.length) (k % bit.length) (orbit_state bit k)

/-- What stays true of the variables of `hess` for candidate length `n`: the
candidate has `n` bytes, all printable, and a pair about to be evaluated lies
within its bounds. -/
def well_formed (n : Nat) (w : Worker) : Prop :=
  w.bit.length = n ∧ printable w.bit ∧
    ∀ i j, w.phase = Phase.exploring i j → i < w.bit.length ∧ j < w.bit.length

/-- The candidates of length `L` whose bytes all lie in `[32, 127)`. -/
def candidates (L : Nat) : Set (List Nat) :=
  {c | c.length = L ∧ ∀ x ∈ c, 32 ≤ x ∧ x < 127}

/-- The closed form of the loop of `step` between `a` and `b`, relating the
result `r` to the entry state `c`: nothing changes outside `[a, b]`; inside,
the bytes are reversed, except at the midpoint `m = (a + b) / 2` (and at
`m + 1` when `b - a` is odd), where the midpoint map has been applied as
often as the loop has run, `(b - a + 1) / 2` times in all. -/
def reversed_between (a b : Nat) (c r : List Nat) : Prop :=
  (∀ p, p < a ∨ b < p → r.getD p 0 = c.getD p 0) ∧
  (∀ p, a ≤ p → p ≤ b → p ≠ (a + b) / 2 → ((b - a) % 2 = 1 → p ≠ (a + b) / 2 + 1) →
    r.getD p 0 = c.getD (a + b - p) 0) ∧
  ((b - a) % 2 = 0 →
    r.getD ((a + b) / 2) 0 = perturb^[(b - a + 1) / 2] (c.getD ((a + b) / 2) 0)) ∧
  ((b - a) % 2 = 1 →
    r.getD ((a + b) / 2) 0 = perturb (c.getD ((a + b) / 2 + 1) 0) ∧
    r.getD ((a + b) / 2 + 1) 0 = perturb^[(b - a + 1) / 2 - 1] (c.getD ((a + b) / 2) 0))

/-! ## Invariants used in the proofs -/

/-- The fingerprints inserted by the calls that returned `true` are pairwise
distinct and are exactly the content of the table. -/
def Pool.consistent (s : Pool) : Prop :=
  (s.wins.map Prod.snd).Nodup ∧ s.db = (s.wins.map Prod.snd).toFinset

/-- The reports printed so far: their distances strictly decrease, and
`cursor` is at most each of them. -/
def reports_decrease (w : Worker) : Prop :=
  (w.out.map Report.cursor).Pairwise (· > ·) ∧ ∀ r ∈ w.out, w.cursor ≤ r.cursor

/-- What stays true of a worker whose candidate has length one: the candidate
is the single space it started as, and a printed winner is that candidate. -/
def stuck_at_space (w : Worker) : Prop :=
  w.bit = [32] ∧ (∀ i j, w.phase = Phase.exploring i j → i = 0 ∧ j = 0) ∧
    ∀ r ∈ w.out, ∀ c h, r.winner = some (c, h) → c = [32]

/-! # Theorems -/

/-! ## Lemmas on the local transform -/

theorem swap_length (a b : Nat) (bit : List Nat) : (swap a b bit).length = bit.length := by
  simp [swap]

theorem bump_length (m : Nat) (bit : List Nat) : (bump m bit).length = bit.length := by
  simp [bump]

theorem step_loop_length (a b : Nat) (bit : List Nat) :
    (step_loop a b bit).length = bit.length := by
  induction b generalizing a bit with
  | zero => simp [step_loop]
  | succ b ih =>
    simp only [step_loop]
    split
    · rw [ih, bump_length, swap_length]
    · rfl

/-- The transform `step` never changes the size of the vector. -/
theorem step_length (i j : Nat) (bit : List Nat) : (step i j bit).length = bit.length :=
  step_loop_length _ _ _

/-- The loop of `step` entered with `a ≥ b` returns at once. -/
theorem step_loop_stop {a b : Nat} (h : b ≤ a) (bit : List Nat) : step_loop a b bit = bit := by
  cases b with
  | zero => simp [step_loop]
  | succ b => simp [step_loop, show ¬ a < b + 1 by omega]

theorem step_self (i : Nat) (bit : List Nat) : step i i bit = bit :=
  step_loop_stop (by simp) bit

theorem swap_printable {a b : Nat} {bit : List Nat} (ha : a < bit.length) (hb : b < bit.length)
    (h : printable bit) : printable (swap a b bit) := by
  intro x hx
  unfold swap at hx
  rcases List.mem_or_eq_of_mem_set hx with hx | rfl
  · rcases List.mem_or_eq_of_mem_set hx with hx | rfl
    · exact h x hx
    · rw [List.getD_eq_getElem _ _ hb]
      exact h _ (List.getElem_mem hb)
  · rw [List.getD_eq_getElem _ _ ha]
    exact h _ (List.getElem_mem ha)

theorem bump_printable {m : Nat} {bit : List Nat} (h : printable bit) :
    printable (bump m bit) := by
  intro x hx
  unfold bump at hx
  rcases List.mem_or_eq_of_mem_set hx with hx | rfl
  · exact h x hx
  · have : (bit.getD m 0 + 1) % (base - 32) < 95 := Nat.mod_lt _ (by decide)
    simp only [base] at *
    omega

theorem step_loop_printable (a b : Nat) (bit : List Nat) (hb : b < bit.length)
    (h : printable bit) : printable (step_loop a b bit) := by
  induction b generalizing a bit with
  | zero => simpa [step_loop] using h
  | succ b ih =>
    simp only [step_loop]
    split
    · rename_i hab
      apply ih
      · rw [bump_length, swap_length]; omega
      · exact bump_printable (swap_printable (by omega) hb h)
    · exact h

/-! ## Lemmas on the orbit generator -/

theorem claim_absent {key : Nat} {db : Finset Nat} (h : key ∉ db) :
    claim key db = (true, insert key db) := by
  simp [claim, h]

theorem claim_present {key : Nat} {db : Finset Nat} (h : key ∈ db) :
    claim key db = (false, db) := by
  simp [claim, h]

theorem orbit_inner_effect (i : Nat) (js bit : List Nat) (db : Finset Nat) :
    orbit_effect db (orbit_inner i js bit db) := by
  induction js generalizing bit with
  | nil => simp [orbit_inner, orbit_effect]
  | cons j js ih =>
    by_cases h : hashing bit ∈ db
    · simpa [orbit_inner, claim_present h] using ih (step i j bit)
    · simp [orbit_inner, claim_absent h, orbit_effect, h]

theorem orbit_outer_effect (is bit : List Nat) (db : Finset Nat) :
    orbit_effect db (orbit_outer is bit db) := by
  induction is generalizing bit with
  | nil => simp [orbit_outer, orbit_effect]
  | cons i is ih =>
    have hin := orbit_inner_effect i (List.range bit.length) bit db
    rcases hr : orbit_inner i (List.range bit.length) bit db with ⟨ok, bit', db'⟩
    rw [hr] at hin
    cases ok with
    | true => simpa [orbit_outer, hr] using hin
    | false =>
      have hdb : db' = db := hin.2 rfl
      subst hdb
      simpa [orbit_outer, hr] using ih bit'

theorem next_orbit_effect (bit : List Nat) (db : Finset Nat) :
    orbit_effect db (next_orbit bit db) :=
  orbit_outer_effect _ _ _

/-! ## The claims -/

/-- C1: for a non-empty candidate whose fingerprint `hashing bit` is absent from the table,
`next_orbit` returns `true`, leaves the candidate unchanged, and the table afterwards is
the old table with that one fingerprint inserted. -/
theorem next_orbit_fresh (bit : List Nat) (db : Finset Nat) (hne : bit ≠ [])
    (habs : hashing bit ∉ db) :
    next_orbit bit db = (true, bit, insert (hashing bit) db) := by
  obtain ⟨n, hn⟩ : ∃ n, bit.length = n + 1 :=
    Nat.exists_eq_succ_of_ne_zero (by simpa using hne)
  simp [next_orbit, hn, List.range_succ_eq_map, orbit_outer, orbit_inner, claim_absent habs]

/-- Witness of C1: the candidate of two spaces on the empty table. -/
theorem next_orbit_fresh_witness :
    next_orbit [32, 32] ∅ = (true, [32, 32], insert (hashing [32, 32]) ∅) :=
  next_orbit_fresh [32, 32] ∅ (by decide) (by decide)

/-- C2: a `next_orbit` call never removes a table entry; when it returns `true` the table
is the old one plus exactly one fingerprint, that of the candidate as the call leaves it,
which was absent before (so the size grows by one); when it returns `false` the table is
unchanged. -/
theorem next_orbit_table (bit : List Nat) (db : Finset Nat) :
    db ⊆ (next_orbit bit db).2.2 ∧
    ((next_orbit bit db).1 = true →
      hashing (next_orbit bit db).2.1 ∉ db ∧
      (next_orbit bit db).2.2 = insert (hashing (next_orbit bit db).2.1) db ∧
      (next_orbit bit db).2.2.card = db.card + 1) ∧
    ((next_orbit bit db).1 = false → (next_orbit bit db).2.2 = db) := by
  have h := next_orbit_effect bit db
  rcases hr : next_orbit bit db with ⟨ok, bit', db'⟩
  rw [hr] at h
  cases ok with
  | true =>
    obtain ⟨habs, hdb⟩ := h.1 rfl
    simp only at habs hdb
    subst hdb
    simp [Finset.card_insert_of_not_mem habs, habs]
  | false =>
    have hdb : db' = db := h.2 rfl
    simp [hdb]

/-- C4: for a candidate whose bytes all lie in `[32, 127)` and indices `i`, `j` within its
bounds, `step i j` returns a candidate of the same length whose bytes all lie in
`[32, 127)`. -/
theorem step_preserves (i j : Nat) (bit : List Nat) (hi : i < bit.length) (hj : j < bit.length)
    (h : ∀ x ∈ bit, 32 ≤ x ∧ x < 127) :
    (step i j bit).length = bit.length ∧ ∀ x ∈ step i j bit, 32 ≤ x ∧ x < 127 :=
  ⟨step_length i j bit, step_loop_printable _ _ bit (max_lt hi hj) h⟩

/-- Witness of C4: reversing a four-byte candidate. -/
theorem step_preserves_witness :
    (step 0 3 [40, 50, 126, 70]).length = [40, 50, 126, 70].length ∧
      ∀ x ∈ step 0 3 [40, 50, 126, 70], 32 ≤ x ∧ x < 127 :=
  step_preserves 0 3 [40, 50, 126, 70] (by decide) (by decide) (by decide)

/-- C5: `step i i` leaves every candidate unchanged (for every index `i`, in particular
every in-bounds one): the loop `while (a < b)` is entered with `a = b = i`, so its body is
not run, no byte is swapped and the midpoint byte is not perturbed. -/
theorem step_same (i : Nat) (bit : List Nat) : step i i bit = bit := by
  unfold step
  rw [min_self, max_self]
  exact step_loop_stop le_rfl bit

/-! ## Lemmas on the pool of workers -/

theorem call_step_cases (c : Call) (db : Finset Nat) :
    (call_step c db = (some true, c, insert (hashing c.bit) db) ∧ hashing c.bit ∉ db) ∨
    ((call_step c db).1 ≠ some true ∧ (call_step c db).2.2 = db) := by
  unfold call_step
  by_cases hi : c.i < c.bit.length
  · by_cases hj : c.j < c.bit.length
    · by_cases h : hashing c.bit ∈ db
      · right; simp [hi, hj, claim_present h]
      · left; simp [hi, hj, claim_absent h, h]
    · right; simp [hi, hj]
  · right; simp [hi]

theorem Pool.exec_call (s : Pool) (w : Nat) (bit : List Nat) :
    s.exec (Event.call w bit) =
      match s.calls w with
      | none => { s with calls := Function.update s.calls w (some ⟨0, 0, bit⟩) }
      | some _ => s := rfl

theorem Pool.exec_advance (s : Pool) (w : Nat) :
    s.exec (Event.advance w) =
      match s.calls w with
      | none => s
      | some c =>
        match call_step c s.db with
        | (none, c', db') => { s with calls := Function.update s.calls w (some c'), db := db' }
        | (some true, c', db') =>
          { calls := Function.update s.calls w none, db := db',
            wins := s.wins ++ [(w, hashing c'.bit)] }
        | (some false, _, db') =>
          { s with calls := Function.update s.calls w none, db := db' } := rfl

theorem Pool.exec_consistent (s : Pool) (e : Event) (h : s.consistent) :
    (s.exec e).consistent := by
  cases e with
  | call w bit =>
    rw [Pool.exec_call]
    split <;> exact h
  | advance w =>
    rw [Pool.exec_advance]
    split
    · exact h
    · rename_i c hc
      rcases call_step_cases c s.db with ⟨heq, habs⟩ | ⟨hne, hdb⟩
      · rw [heq]
        obtain ⟨hnd, hdbeq⟩ := h
        rw [hdbeq, List.mem_toFinset] at habs
        constructor
        · simp only [List.map_append, List.map_cons, List.map_nil]
          exact List.Nodup.append hnd (List.nodup_singleton _) (by simpa using habs)
        · simp only [List.map_append, List.map_cons, List.map_nil, List.toFinset_append,
            List.toFinset_cons, List.toFinset_nil]
          rw [hdbeq]
          ext x
          simp [or_comm]
      · rcases hr : call_step c s.db with ⟨ok, c', db'⟩
        rw [hr] at hne hdb
        simp only at hne hdb
        subst hdb
        rcases ok with _ | _ | _
        · exact h
        · exact h
        · exact absurd rfl hne

theorem Pool.foldl_consistent (es : List Event) (s : Pool) (h : s.consistent) :
    (es.foldl Pool.exec s).consistent := by
  induction es generalizing s with
  | nil => exact h
  | cons e es ih => exact ih _ (Pool.exec_consistent s e h)

/-! ## A call run on its own is `next_orbit` -/

theorem orbit_inner_length (i : Nat) (js bit : List Nat) (db : Finset Nat) :
    (orbit_inner i js bit db).2.1.length = bit.length := by
  induction js generalizing bit with
  | nil => simp [orbit_inner]
  | cons j js ih =>
    by_cases h : hashing bit ∈ db
    · simp [orbit_inner, claim_present h, ih, step_length]
    · simp [orbit_inner, claim_absent h]

theorem call_run_inner (i k : Nat) : ∀ (j : Nat) (bit : List Nat) (db : Finset Nat) (fuel : Nat),
    i < bit.length → j + k = bit.length →
    call_run (fuel + (k + 1)) ⟨i, j, bit⟩ db =
      match orbit_inner i (List.range' j k) bit db with
      | (true, b, d) => some (true, b, d)
      | (false, b, d) => call_run fuel ⟨i + 1, 0, b⟩ d := by
  induction k with
  | zero =>
    intro j bit db fuel hi hj
    have hj' : ¬ j < bit.length := by omega
    simp [call_run, call_step, hi, hj', orbit_inner]
  | succ k ih =>
    intro j bit db fuel hi hj
    have hj' : j < bit.length := by omega
    by_cases h : hashing bit ∈ db
    · have := ih (j + 1) (step i j bit) db fuel (by rwa [step_length])
        (by rw [step_length]; omega)
      rw [show fuel + (k + 1 + 1) = (fuel + (k + 1)) + 1 from rfl]
      simp only [call_run, call_step, hi, hj', if_true, claim_present h, List.range'_succ,
        orbit_inner]
      exact this
    · rw [show fuel + (k + 1 + 1) = (fuel + (k + 1)) + 1 from rfl]
      simp [call_run, call_step, hi, hj', claim_absent h, List.range'_succ, orbit_inner]

theorem call_run_outer (m : Nat) : ∀ (i : Nat) (bit : List Nat) (db : Finset Nat) (fuel : Nat),
    i + m = bit.length →
    call_run (fuel + m * (bit.length + 1) + 1) ⟨i, 0, bit⟩ db =
      some (orbit_outer (List.range' i m) bit db) := by
  induction m with
  | zero =>
    intro i bit db fuel hi
    have hi' : ¬ i < bit.length := by omega
    simp [call_run, call_step, hi', orbit_outer]
  | succ m ih =>
    intro i bit db fuel hi
    have hi' : i < bit.length := by omega
    have hin := call_run_inner i bit.length 0 bit db (fuel + m * (bit.length + 1) + 1) hi' (by simp)
    rw [show fuel + (m + 1) * (bit.length + 1) + 1
        = fuel + m * (bit.length + 1) + 1 + (bit.length + 1) by ring, hin]
    have hlen := orbit_inner_length i (List.range' 0 bit.length) bit db
    simp only [List.range'_succ, orbit_outer, List.range_eq_range']
    rcases hr : orbit_inner i (List.range' 0 bit.length) bit db with ⟨ok, b, d⟩
    rw [hr] at hlen
    simp only at hlen
    cases ok with
    | true => rfl
    | false =>
      have := ih (i + 1) b d fuel (by omega)
      rw [hlen] at this
      simpa using this

/-- Running the steps of one call without interference from other workers
gives the result of `next_orbit`, within `L * (L + 1) + 1` steps. -/
theorem call_run_eq_next_orbit (bit : List Nat) (db : Finset Nat) (fuel : Nat) :
    call_run (fuel + bit.length * (bit.length + 1) + 1) ⟨0, 0, bit⟩ db =
      some (next_orbit bit db) := by
  rw [call_run_outer bit.length 0 bit db fuel (by simp), next_orbit, List.range_eq_range']

/-- Two workers on the same candidate: only the first call claims it. -/
theorem Pool.run_example :
    (Pool.run [Event.call 0 [32], Event.call 1 [32], Event.advance 1, Event.advance 0,
      Event.advance 0, Event.advance 0]).wins = [(1, hashing [32])] := by
  decide

/-- C3: with the lock serialising the workers' critical sections into one sequence that
starts from the empty table, for every such sequence (any workers, any candidates) no
fingerprint is claimed by two `next_orbit` calls, and the number of fingerprints in the
table equals the number of `next_orbit` calls that returned `true`; the table holds exactly
the fingerprints those calls inserted. -/
theorem no_double_claim (es : List Event) :
    ((Pool.run es).wins.map Prod.snd).Nodup ∧
      (Pool.run es).db.card = (Pool.run es).wins.length ∧
      (Pool.run es).db = ((Pool.run es).wins.map Prod.snd).toFinset := by
  have h : (Pool.run es).consistent :=
    Pool.foldl_consistent es Pool.start ⟨by simp [Pool.start], by simp [Pool.start]⟩
  refine ⟨h.1, ?_, h.2⟩
  rw [h.2, List.toFinset_card_of_nodup h.1, List.length_map]

/-! ## Rounding to binary32 -/

theorem f32_round_of_lt {x : Nat} (h : x < 2 ^ 24) : f32_round x = x := by
  unfold f32_round
  rw [if_pos h]

theorem log2_eq_of_bounds {y e : Nat} (h1 : 2 ^ e ≤ y) (h2 : y < 2 ^ (e + 1)) :
    Nat.log2 y = e := by
  rw [Nat.log2_eq_log_two]
  have hpos : 0 < 2 ^ e := Nat.pow_pos (by norm_num)
  exact (Nat.log_eq_iff (Or.inr ⟨by norm_num, by omega⟩)).2 ⟨h1, h2⟩

theorem f32_round_spec {y : Nat} (hy : 2 ^ 24 ≤ y) :
    ∃ e q u, Nat.log2 y = e + 24 ∧ u = 2 ^ (e + 1) ∧ 2 ^ 23 * u ≤ y ∧ y < 2 ^ 24 * u ∧
      q * u ≤ y ∧ y < (q + 1) * u ∧ 2 ^ 23 ≤ q ∧ q < 2 ^ 24 ∧
      (f32_round y = q * u ∨ f32_round y = (q + 1) * u) ∧
      (2 * (y - q * u) < u → f32_round y = q * u) := by
  have hy0 : y ≠ 0 := by
    have : 0 < 2 ^ 24 := by norm_num
    omega
  have h1 : 2 ^ Nat.log2 y ≤ y := Nat.log2_self_le hy0
  have h2 : y < 2 ^ (Nat.log2 y + 1) := Nat.lt_log2_self
  have h24 : 24 ≤ Nat.log2 y := by
    by_contra hlt
    have : Nat.log2 y + 1 ≤ 24 := by omega
    have := Nat.pow_le_pow_right (show 0 < 2 by norm_num) this
    omega
  obtain ⟨e, he⟩ : ∃ e, Nat.log2 y = e + 24 := ⟨Nat.log2 y - 24, by omega⟩
  have hu : Nat.log2 y - 23 = e + 1 := by omega
  have hupos : 0 < 2 ^ (e + 1) := Nat.pow_pos (by norm_num)
  have hp1 : 2 ^ (Nat.log2 y) = 2 ^ 23 * 2 ^ (e + 1) := by
    rw [he, ← pow_add]; congr 1; omega
  have hp2 : 2 ^ (Nat.log2 y + 1) = 2 ^ 24 * 2 ^ (e + 1) := by
    rw [he, ← pow_add]; congr 1; omega
  rw [hp1] at h1
  rw [hp2] at h2
  have hq1 : y / 2 ^ (e + 1) * 2 ^ (e + 1) ≤ y := Nat.div_mul_le_self _ _
  have hq2 : y < (y / 2 ^ (e + 1) + 1) * 2 ^ (e + 1) := by
    have := Nat.lt_succ_self (y / 2 ^ (e + 1))
    exact (Nat.div_lt_iff_lt_mul hupos).1 this
  have hq3 : 2 ^ 23 ≤ y / 2 ^ (e + 1) := (Nat.le_div_iff_mul_le hupos).2 h1
  have hq4 : y / 2 ^ (e + 1) < 2 ^ 24 := (Nat.div_lt_iff_lt_mul hupos).2 h2
  refine ⟨e, y / 2 ^ (e + 1), 2 ^ (e + 1), he, rfl, h1, h2, hq1, hq2, hq3, hq4, ?_, ?_⟩
  · have hny : ¬ y < 2 ^ 24 := by omega
    simp only [f32_round, hny, if_false, hu]
    split
    · left; rfl
    · split
      · left; rfl
      · right; rw [Nat.add_mul, one_mul]
  · intro h
    have hny : ¬ y < 2 ^ 24 := by omega
    simp only [f32_round, hny, if_false, hu]
    rw [if_pos h]

theorem f32_round_val (y : Nat) : f32_val (f32_round y) := by
  by_cases hy : y < 2 ^ 24
  · rw [f32_round_of_lt hy]; exact Or.inl hy
  · obtain ⟨e, q, u, he, hu, h1, h2, hq1, hq2, hq3, hq4, hr, -⟩ :=
      f32_round_spec (Nat.le_of_not_lt hy)
    right
    have hupos : 0 < u := by rw [hu]; exact Nat.pow_pos (by norm_num)
    have key : ∀ t, 2 ^ 23 ≤ t → t ≤ 2 ^ 24 → 2 ^ (Nat.log2 (t * u) - 23) ∣ t * u := by
      intro t ht1 ht2
      rcases Nat.lt_or_ge t (2 ^ 24) with ht | ht
      · have hlog : Nat.log2 (t * u) = e + 24 := by
          apply log2_eq_of_bounds
          · rw [show e + 24 = 23 + (e + 1) by omega, pow_add, ← hu]
            exact Nat.mul_le_mul_right _ ht1
          · rw [show e + 24 + 1 = 24 + (e + 1) by omega, pow_add, ← hu]
            exact Nat.mul_lt_mul_of_pos_right ht hupos
        rw [hlog, show e + 24 - 23 = e + 1 by omega, ← hu]
        exact Dvd.intro_left _ rfl
      · have ht' : t = 2 ^ 24 := le_antisymm ht2 ht
        have hlog : Nat.log2 (t * u) = e + 25 := by
          apply log2_eq_of_bounds
          · rw [ht', hu, ← pow_add]; exact Nat.pow_le_pow_right (by norm_num) (by omega)
          · rw [ht', hu, ← pow_add]; exact Nat.pow_lt_pow_right (by norm_num) (by omega)
        rw [hlog, ht', hu, ← pow_add]
        exact pow_dvd_pow 2 (by omega)
    rcases hr with hr | hr
    · rw [hr]; exact key q hq3 (le_of_lt hq4)
    · rw [hr]; exact key (q + 1) (by omega) (by omega)

theorem le_f32_round {x y : Nat} (hx : f32_val x) (hxy : x ≤ y) : x ≤ f32_round y := by
  by_cases hy : y < 2 ^ 24
  · rw [f32_round_of_lt hy]; exact hxy
  · obtain ⟨e, q, u, he, hu, h1, h2, hq1, hq2, hq3, hq4, hr, -⟩ :=
      f32_round_spec (Nat.le_of_not_lt hy)
    have hupos : 0 < u := by rw [hu]; exact Nat.pow_pos (by norm_num)
    have hlo : x ≤ q * u := by
      rcases Nat.lt_or_ge x (2 ^ 23 * u) with hlt | hge
      · exact le_trans (le_of_lt hlt) (Nat.mul_le_mul_right _ hq3)
      · have hx24 : ¬ x < 2 ^ 24 := by
          have : 2 ^ 23 * 2 ≤ 2 ^ 23 * u := Nat.mul_le_mul_left _ (by
            rw [hu]; calc 2 = 2 ^ 1 := by norm_num
              _ ≤ 2 ^ (e + 1) := Nat.pow_le_pow_right (by norm_num) (by omega))
          norm_num at this ⊢
          omega
        have hdvd := hx.resolve_left hx24
        have hlog : Nat.log2 x = e + 24 := by
          apply log2_eq_of_bounds
          · rw [show e + 24 = 23 + (e + 1) by omega, pow_add, ← hu]; exact hge
          · rw [show e + 24 + 1 = 24 + (e + 1) by omega, pow_add, ← hu]; omega
        rw [hlog, show e + 24 - 23 = e + 1 by omega, ← hu] at hdvd
        obtain ⟨t, rfl⟩ := hdvd
        rw [Nat.mul_comm u t]
        apply Nat.mul_le_mul_right
        by_contra hlt
        have : q + 1 ≤ t := by omega
        have := Nat.mul_le_mul_right u this
        rw [Nat.mul_comm u t] at hxy
        omega
    rcases hr with hr | hr
    · rw [hr]; exact hlo
    · rw [hr]; exact le_trans hlo (Nat.mul_le_mul_right _ (by omega))

theorem f32_round_le_pow33 {y : Nat} (h : y ≤ 2 ^ 33 + 511) : f32_round y ≤ 2 ^ 33 := by
  by_cases hy : y < 2 ^ 24
  · rw [f32_round_of_lt hy]; omega
  · obtain ⟨e, q, u, he, hu, h1, h2, hq1, hq2, hq3, hq4, hr, hdown⟩ :=
      f32_round_spec (Nat.le_of_not_lt hy)
    have hupos : 0 < u := by rw [hu]; exact Nat.pow_pos (by norm_num)
    have hub : f32_round y ≤ 2 ^ 24 * u := by
      rcases hr with hr | hr <;> rw [hr] <;> apply Nat.mul_le_mul_right <;> omega
    rcases Nat.lt_or_ge e 9 with he9 | he9
    · have : u ≤ 2 ^ 9 := by rw [hu]; exact Nat.pow_le_pow_right (by norm_num) (by omega)
      have := Nat.mul_le_mul_left (2 ^ 24) this
      norm_num at *
      omega
    · have hu10 : 2 ^ 10 ≤ u := by rw [hu]; exact Nat.pow_le_pow_right (by norm_num) (by omega)
      have he9' : e = 9 := by
        by_contra hne
        have : 2 ^ 11 ≤ u := by rw [hu]; exact Nat.pow_le_pow_right (by norm_num) (by omega)
        have := Nat.mul_le_mul_left (2 ^ 23) this
        norm_num at *
        omega
      subst he9'
      norm_num at hu
      subst hu
      have hq : q = 2 ^ 23 := by norm_num at *; omega
      subst hq
      rw [hdown (by norm_num at *; omega)]
      norm_num

/-! ## Lemmas on the digest oracle -/

theorem char_dist_le (sgn : Bool) (hash hash_hex_str : List (Fin 256)) (i : Nat) :
    char_dist sgn hash hash_hex_str i ≤ 255 := by
  have h1 := (char_at hash i).isLt
  have h2 := (char_at hash_hex_str i).isLt
  unfold char_dist promote
  cases sgn
  · simp only [Bool.false_eq_true, false_and, if_false]
    omega
  · simp only [true_and]
    split <;> split <;> omega

theorem running_val (sgn : Bool) (stride : Nat) (hash hash_hex_str : List (Fin 256)) (k : Nat) :
    f32_val (running sgn stride hash hash_hex_str k) := by
  cases k with
  | zero => exact Or.inl (by simp [running])
  | succ k => exact f32_round_val _

theorem running_mono_succ (sgn : Bool) (stride : Nat) (hash hash_hex_str : List (Fin 256))
    (k : Nat) :
    running sgn stride hash hash_hex_str k ≤ running sgn stride hash hash_hex_str (k + 1) :=
  le_f32_round (running_val sgn stride hash hash_hex_str k) (Nat.le_add_right _ _)

/-- The running sums never decrease. -/
theorem running_mono (sgn : Bool) (stride : Nat) (hash hash_hex_str : List (Fin 256)) :
    Monotone (running sgn stride hash hash_hex_str) :=
  monotone_nat_of_le_succ (running_mono_succ sgn stride hash hash_hex_str)

/-- While `255 * k` stays below `2 ^ 24` no addition rounds: the running sum
is the exact sum of the sampled differences. -/
theorem running_eq_sum (sgn : Bool) (stride : Nat) (hash hash_hex_str : List (Fin 256))
    (k : Nat) (hk : 255 * k < 2 ^ 24) :
    running sgn stride hash hash_hex_str k =
      ∑ t in Finset.range k, char_dist sgn hash hash_hex_str (t * stride) ∧
    running sgn stride hash hash_hex_str k ≤ 255 * k := by
  induction k with
  | zero => simp [running]
  | succ k ih =>
    obtain ⟨h1, h2⟩ := ih (by omega)
    have hd := char_dist_le sgn hash hash_hex_str (k * stride)
    have hlt : running sgn stride hash hash_hex_str k + char_dist sgn hash hash_hex_str (k * stride)
        < 2 ^ 24 := by omega
    rw [running, accumulate, f32_round_of_lt hlt, Finset.sum_range_succ, h1]
    exact ⟨rfl, by rw [← h1]; omega⟩

theorem lt_samples_iff {stride : Nat} (hs : 1 ≤ stride) (len k : Nat) :
    k < samples stride len ↔ k * stride < len := by
  unfold samples
  rw [Nat.lt_iff_add_one_le, Nat.le_div_iff_mul_le (by omega), Nat.add_mul, one_mul]
  omega

theorem samples_le {stride : Nat} (hs : 1 ≤ stride) (len : Nat) : samples stride len ≤ len := by
  by_contra h
  have := (lt_samples_iff hs len len).1 (by omega)
  have : len * 1 ≤ len * stride := Nat.mul_le_mul_left _ hs
  omega

/-- The sampling loop, entered after `k` samples with `m` more positions to
visit: it returns the last running sum when none of the remaining running
sums exceeds `global`, and otherwise the first of them that does. -/
theorem oracle_loop_spec (sgn : Bool) {stride : Nat} (hs : 1 ≤ stride)
    (hash hash_hex_str : List (Fin 256)) (global : ℚ) (m : Nat) :
    ∀ (k fuel : Nat), k + m = samples stride hash.length →
      ∃ r, oracle_loop sgn stride hash hash_hex_str global (fuel + m + 1) (k * stride)
          (running sgn stride hash hash_hex_str k) = some r ∧
        ((∀ t, k < t → t ≤ samples stride hash.length →
            (running sgn stride hash hash_hex_str t : ℚ) ≤ global) →
          r = running sgn stride hash hash_hex_str (samples stride hash.length)) ∧
        (∀ t, k < t → t ≤ samples stride hash.length →
          global < (running sgn stride hash hash_hex_str t : ℚ) →
          (∀ u, k < u → u < t → (running sgn stride hash hash_hex_str u : ℚ) ≤ global) →
          r = running sgn stride hash hash_hex_str t) := by
  induction m with
  | zero =>
    intro k fuel hk
    have hnot : ¬ k * stride < hash.length := by
      rw [← lt_samples_iff hs]; omega
    refine ⟨running sgn stride hash hash_hex_str k, ?_, ?_, ?_⟩
    · simp [oracle_loop, hnot]
    · intro _; rw [← hk]; rfl
    · intro t h1 h2; omega
  | succ m ih =>
    intro k fuel hk
    have hlt : k * stride < hash.length := by
      rw [← lt_samples_iff hs]; omega
    have hstep : (k + 1) * stride = k * stride + stride := by ring
    have hrun : accumulate sgn hash hash_hex_str (k * stride)
        (running sgn stride hash hash_hex_str k) = running sgn stride hash hash_hex_str (k + 1) :=
      rfl
    by_cases hg : global < (running sgn stride hash hash_hex_str (k + 1) : ℚ)
    · refine ⟨running sgn stride hash hash_hex_str (k + 1), ?_, ?_, ?_⟩
      · rw [show fuel + (m + 1) + 1 = (fuel + m + 1) + 1 by ring, oracle_loop, if_pos hlt]
        simp only [hrun]
        rw [if_pos hg]
      · intro h
        exact absurd (h (k + 1) (by omega) (by omega)) (not_le.2 hg)
      · intro t h1 h2 h3 h4
        rcases Nat.lt_or_ge (k + 1) t with h5 | h5
        · exact absurd (h4 (k + 1) (by omega) h5) (not_le.2 hg)
        · rw [show t = k + 1 by omega]
    · obtain ⟨r, hr, hr1, hr2⟩ := ih (k + 1) fuel (by omega)
      refine ⟨r, ?_, ?_, ?_⟩
      · rw [show fuel + (m + 1) + 1 = (fuel + m + 1) + 1 by ring, oracle_loop, if_pos hlt]
        simp only [hrun]
        rw [if_neg hg, ← hstep]
        exact hr
      · intro h
        exact hr1 fun t h1 h2 => h t (by omega) h2
      · intro t h1 h2 h3 h4
        have h5 : t ≠ k + 1 := fun h => hg (h ▸ h3)
        exact hr2 t (by omega) h2 h3 fun u hu1 hu2 => h4 u (by omega) hu2

/-! ## The truncated logarithm -/

theorem floor_log_64 : ⌊Real.log (64 : ℝ)⌋₊ = 4 := by
  have hlo : Real.exp 1 < 2.7182818286 := Real.exp_one_lt_d9
  have hhi : (2.7182818283 : ℝ) < Real.exp 1 := Real.exp_one_gt_d9
  have hpos : (0 : ℝ) < Real.exp 1 := Real.exp_pos 1
  rw [Nat.floor_eq_iff (Real.log_nonneg (by norm_num))]
  constructor
  · rw [Real.le_log_iff_exp_le (by norm_num)]
    have h4 : Real.exp ((4 : ℕ) : ℝ) = Real.exp 1 ^ 4 := (Real.exp_one_pow 4).symm
    rw [h4]
    calc Real.exp 1 ^ 4 ≤ (2.7182818286 : ℝ) ^ 4 :=
          pow_le_pow_left₀ hpos.le hlo.le 4
      _ ≤ 64 := by norm_num
  · rw [Real.log_lt_iff_lt_exp (by norm_num)]
    have h5 : Real.exp (((4 : ℕ) : ℝ) + 1) = Real.exp 1 ^ 5 := by
      rw [Real.exp_one_pow 5]; congr 1; norm_num
    rw [h5]
    calc (64 : ℝ) < (2.7182818283 : ℝ) ^ 5 := by norm_num
      _ ≤ Real.exp 1 ^ 5 := pow_le_pow_left₀ (by norm_num) hhi.le 5

theorem one_le_floor_log {n : Nat} (h : 3 ≤ n) : 1 ≤ ⌊Real.log (n : ℝ)⌋₊ := by
  apply Nat.le_floor
  have hlo : Real.exp 1 < 2.7182818286 := Real.exp_one_lt_d9
  have h3 : (3 : ℝ) ≤ (n : ℝ) := by exact_mod_cast h
  rw [Nat.cast_one, Real.le_log_iff_exp_le (by linarith)]
  have : (2.7182818286 : ℝ) < 3 := by norm_num
  linarith

theorem samples_pos {stride len : Nat} (hs : 1 ≤ stride) (hlen : 0 < len) :
    0 < samples stride len :=
  (lt_samples_iff hs len 0).2 (by simpa using hlen)

/-- Among the running sums that exceed a bound there is a first one. -/
theorem exists_first_exceed {f : Nat → ℚ} {g : ℚ} {N : Nat}
    (h : ∃ t, 0 < t ∧ t ≤ N ∧ g < f t) :
    ∃ t, 0 < t ∧ t ≤ N ∧ g < f t ∧ ∀ u, 0 < u → u < t → f u ≤ g := by
  classical
  obtain ⟨a, b, c⟩ := Nat.find_spec h
  refine ⟨Nat.find h, a, b, c, ?_⟩
  intro u hu1 hu2
  by_contra hcon
  exact Nat.find_min h hu2 ⟨hu1, by omega, not_le.1 hcon⟩

theorem sha256_oracle_eq (sgn : Bool) (digest : List Nat → List (Fin 256))
    (trunc_log : Nat → Nat) (fuel : Nat) (bit : List Nat) (hash : List (Fin 256)) (global : ℚ)
    {r : Nat}
    (h : oracle_loop sgn (trunc_log hash.length) hash (digest bit) global fuel 0 0 = some r) :
    sha256_oracle sgn digest trunc_log fuel bit hash global = some (r, digest bit) := by
  simp [sha256_oracle, h]

/-- The oracle from its entry: the loop of `oracle_loop_spec` with no sample
taken yet. -/
theorem oracle_entry (sgn : Bool) {stride : Nat} (hs : 1 ≤ stride)
    (hash hash_hex_str : List (Fin 256)) (global : ℚ) :
    ∃ r, (∀ fuel, samples stride hash.length < fuel →
          oracle_loop sgn stride hash hash_hex_str global fuel 0 0 = some r) ∧
        ((∀ t, 0 < t → t ≤ samples stride hash.length →
            (running sgn stride hash hash_hex_str t : ℚ) ≤ global) →
          r = full_distance sgn stride hash hash_hex_str) ∧
        (∀ t, 0 < t → t ≤ samples stride hash.length →
          global < (running sgn stride hash hash_hex_str t : ℚ) →
          (∀ u, 0 < u → u < t → (running sgn stride hash hash_hex_str u : ℚ) ≤ global) →
          r = running sgn stride hash hash_hex_str t) := by
  obtain ⟨r, -, h1, h2⟩ :=
    oracle_loop_spec sgn hs hash hash_hex_str global (samples stride hash.length) 0 0 (by simp)
  refine ⟨r, ?_, h1, h2⟩
  intro fuel hfuel
  obtain ⟨r', hr', h1', h2'⟩ :=
    oracle_loop_spec sgn hs hash hash_hex_str global (samples stride hash.length) 0
      (fuel - samples stride hash.length - 1) (by simp)
  have hfu : fuel - samples stride hash.length - 1 + samples stride hash.length + 1 = fuel := by
    omega
  rw [hfu, Nat.zero_mul] at hr'
  have hrr : r' = r := by
    by_cases hall : ∀ t, 0 < t → t ≤ samples stride hash.length →
        (running sgn stride hash hash_hex_str t : ℚ) ≤ global
    · rw [h1 hall, h1' hall]
    · push_neg at hall
      obtain ⟨t, a, b, c, hbelow⟩ := exists_first_exceed hall
      rw [h2 _ a b c hbelow, h2' _ a b c hbelow]
  rw [← hrr]
  exact hr'

theorem sum_char_dist_le (sgn : Bool) (hash hash_hex_str : List (Fin 256)) (f : Nat → Nat)
    (m : Nat) : ∑ k in Finset.range m, char_dist sgn hash hash_hex_str (f k) ≤ 255 * m := by
  induction m with
  | zero => simp
  | succ m ih =>
    rw [Finset.sum_range_succ]
    have := char_dist_le sgn hash hash_hex_str (f m)
    omega

/-- With a positive stride `s`, a number of samples small enough for the
binary32 sums to be exact, and a bound that no running sum exceeds, the oracle
returns the sum of the character differences at the positions `k * s` below
the target's length. -/
theorem oracle_strided_sum (sgn : Bool) (digest : List Nat → List (Fin 256))
    (trunc_log : Nat → Nat) (bit : List Nat) (hash : List (Fin 256)) (global : ℚ)
    (hs : 1 ≤ trunc_log hash.length)
    (hsmall : 255 * samples (trunc_log hash.length) hash.length < 2 ^ 24)
    (hg : ∀ m, 0 < m → m ≤ samples (trunc_log hash.length) hash.length →
      ((∑ k in Finset.range m,
        char_dist sgn hash (digest bit) (k * trunc_log hash.length) : ℕ) : ℚ) ≤ global)
    (fuel : Nat) (hfuel : samples (trunc_log hash.length) hash.length < fuel) :
    sha256_oracle sgn digest trunc_log fuel bit hash global =
      some (∑ k in Finset.range (samples (trunc_log hash.length) hash.length),
        char_dist sgn hash (digest bit) (k * trunc_log hash.length), digest bit) := by
  apply sha256_oracle_eq
  obtain ⟨r, hr, hfull, -⟩ := oracle_entry sgn hs hash (digest bit) global
  have hrS : r = full_distance sgn (trunc_log hash.length) hash (digest bit) := by
    apply hfull
    intro t ht1 ht2
    rw [(running_eq_sum sgn _ hash (digest bit) t (by omega)).1]
    exact hg t ht1 ht2
  rw [full_distance, (running_eq_sum sgn _ hash (digest bit) _ hsmall).1] at hrS
  rw [← hrS]
  exact hr fuel hfuel

/-- C6: for a 64-character target and a bound that no running sum exceeds, `sha256_oracle`
returns the sum of `|target[p] - digest[p]|` over the positions `p = 4 * k`, `k < 16`,
that is `0, 4, ..., 60`, of the digest string of the candidate; the stride `4` is the
truncated natural logarithm of the length 64.  In general (second part), for a target of
any length from 3 to 65536 with stride `s = ⌊ln length⌋` whose sampled positions all lie
within the digest string (at most its length, so that line 83 never subscripts
`hash_hex_str` out of bounds), the sampled positions are the `k * s` below the length and
the result is the sum over them. -/
theorem oracle_sampled_sum (sgn : Bool) (digest : List Nat → List (Fin 256))
    (trunc_log : Nat → Nat) (bit : List Nat) (hash : List (Fin 256)) (global : ℚ)
    (hlen : hash.length = 64)
    (hlog : trunc_log hash.length = ⌊Real.log (hash.length : ℝ)⌋₊)
    (hg : ∀ m, 0 < m → m ≤ 16 →
      ((∑ k in Finset.range m, char_dist sgn hash (digest bit) (4 * k) : ℕ) : ℚ) ≤ global) :
    (trunc_log hash.length = 4 ∧ samples (trunc_log hash.length) hash.length = 16 ∧
      ∀ fuel, 16 < fuel →
        sha256_oracle sgn digest trunc_log fuel bit hash global =
          some (∑ k in Finset.range 16, char_dist sgn hash (digest bit) (4 * k), digest bit)) ∧
    (∀ (target : List (Fin 256)) (g : ℚ), 3 ≤ target.length → target.length ≤ 65536 →
      trunc_log target.length = ⌊Real.log (target.length : ℝ)⌋₊ →
      (∀ k, k < samples (trunc_log target.length) target.length →
        k * trunc_log target.length ≤ (digest bit).length) →
      (∀ m, 0 < m → m ≤ samples (trunc_log target.length) target.length →
        ((∑ k in Finset.range m,
          char_dist sgn target (digest bit) (k * trunc_log target.length) : ℕ) : ℚ) ≤ g) →
      (∀ k, k < samples (trunc_log target.length) target.length ↔
        k * trunc_log target.length < target.length) ∧
      ∀ fuel, target.length < fuel →
        sha256_oracle sgn digest trunc_log fuel bit target g =
          some (∑ k in Finset.range (samples (trunc_log target.length) target.length),
            char_dist sgn target (digest bit) (k * trunc_log target.length), digest bit)) := by
  constructor
  · have hs : trunc_log hash.length = 4 := by
      rw [hlog, hlen]
      exact_mod_cast floor_log_64
    have hN : samples 4 hash.length = 16 := by rw [hlen]; rfl
    have hcomm : ∀ m, ∑ k in Finset.range m, char_dist sgn hash (digest bit) (k * 4) =
        ∑ k in Finset.range m, char_dist sgn hash (digest bit) (4 * k) := fun m =>
      Finset.sum_congr rfl fun k _ => by rw [Nat.mul_comm]
    refine ⟨hs, by rw [hs, hN], ?_⟩
    intro fuel hfuel
    have := oracle_strided_sum sgn digest trunc_log bit hash global (by rw [hs]; norm_num)
      (by rw [hs, hN]; norm_num)
      (by
        intro m hm1 hm2
        rw [hs, hN] at hm2
        rw [hs, hcomm]
        exact hg m hm1 hm2)
      fuel (by rw [hs, hN]; exact hfuel)
    rw [this, hs, hN, hcomm]
  · intro target g h3 hle hlog' _ hg'
    have hs : 1 ≤ trunc_log target.length := by rw [hlog']; exact one_le_floor_log h3
    have hN := samples_le hs target.length
    refine ⟨fun k => lt_samples_iff hs _ _, ?_⟩
    intro fuel hfuel
    exact oracle_strided_sum sgn digest trunc_log bit target g hs
      (by norm_num at hle ⊢; omega) hg' fuel (by omega)

/-- Witness of C6: a target of 64 spaces against a digest of 64 exclamation marks; the
sixteen sampled differences are 1 each. -/
theorem oracle_sampled_sum_witness :
    (toy_digest [32]).length = 64 ∧
      sha256_oracle true toy_digest (fun _ => 4) 17 [33] (toy_digest [32]) 5000 =
        some (16, toy_digest [33]) :=
  ⟨rfl, ((oracle_sampled_sum true toy_digest (fun _ => 4) [33] (toy_digest [32]) 5000 rfl
      (by rw [show (toy_digest [32]).length = 64 from rfl]; exact_mod_cast floor_log_64.symm)
      (fun m _ hm => by
        have := sum_char_dist_le true (toy_digest [32]) (toy_digest [33]) (fun k => 4 * k) m
        exact_mod_cast (show _ ≤ 5000 by omega))).1.2.2 17 (by decide)).trans (by decide)⟩

/-- The sixteen positions sampled in a 64-character target lie within a
64-character digest string. -/
theorem sampled_within_toy :
    ∀ k, k < samples 4 (toy_digest [32]).length → k * 4 ≤ (toy_digest [33]).length := by
  intro k hk
  have h1 : samples 4 (toy_digest [32]).length = 16 := rfl
  have h2 : (toy_digest [33]).length = 64 := rfl
  rw [h1] at hk
  rw [h2]
  omega

/-- C7: for a target of length at least 3 whose sampled positions all lie within the digest
string (at most its length, so that line 83 never subscripts `hash_hex_str` out of
bounds) and a bound `g`, with `S` the full sampled-sum distance (`full_distance`): the
oracle returns (with any fuel above the target's length) a value `r` such that, if no
running sum exceeds `g` (equivalently `S ≤ g`), `r = S`; otherwise `r` is the first
running sum that exceeds `g`, and `g < r ≤ S`.  The sums are those the `float`
accumulator holds; `S` is the exact sum of the sampled differences as long as 255 times
the number of samples is below `2 ^ 24`.  Every character read from the digest string is
one of its own or, at the position equal to its length, the terminating zero (last
part). -/
theorem oracle_early_exit (sgn : Bool) (digest : List Nat → List (Fin 256))
    (trunc_log : Nat → Nat) (bit : List Nat) (hash : List (Fin 256)) (g : ℚ)
    (h3 : 3 ≤ hash.length)
    (hlog : trunc_log hash.length = ⌊Real.log (hash.length : ℝ)⌋₊)
    (hin : ∀ k, k < samples (trunc_log hash.length) hash.length →
      k * trunc_log hash.length ≤ (digest bit).length) :
    ∃ r : Nat,
      (∀ fuel, hash.length < fuel →
        sha256_oracle sgn digest trunc_log fuel bit hash g = some (r, digest bit)) ∧
      ((∀ t, 0 < t → t ≤ samples (trunc_log hash.length) hash.length →
          (running sgn (trunc_log hash.length) hash (digest bit) t : ℚ) ≤ g) ↔
        (full_distance sgn (trunc_log hash.length) hash (digest bit) : ℚ) ≤ g) ∧
      ((full_distance sgn (trunc_log hash.length) hash (digest bit) : ℚ) ≤ g →
        r = full_distance sgn (trunc_log hash.length) hash (digest bit)) ∧
      (g < (full_distance sgn (trunc_log hash.length) hash (digest bit) : ℚ) →
        g < (r : ℚ) ∧ r ≤ full_distance sgn (trunc_log hash.length) hash (digest bit) ∧
        ∃ t, 0 < t ∧ t ≤ samples (trunc_log hash.length) hash.length ∧
          r = running sgn (trunc_log hash.length) hash (digest bit) t ∧
          ∀ u, 0 < u → u < t →
            (running sgn (trunc_log hash.length) hash (digest bit) u : ℚ) ≤ g) ∧
      (255 * samples (trunc_log hash.length) hash.length < 2 ^ 24 →
        full_distance sgn (trunc_log hash.length) hash (digest bit) =
          ∑ k in Finset.range (samples (trunc_log hash.length) hash.length),
            char_dist sgn hash (digest bit) (k * trunc_log hash.length)) ∧
      (∀ k, k < samples (trunc_log hash.length) hash.length →
        k * trunc_log hash.length < (digest bit).length ∨
          (k * trunc_log hash.length = (digest bit).length ∧
            char_at (digest bit) (k * trunc_log hash.length) = 0)) := by
  have hs : 1 ≤ trunc_log hash.length := by rw [hlog]; exact one_le_floor_log h3
  have hNpos := samples_pos hs (show 0 < hash.length by omega)
  have hNle := samples_le hs hash.length
  have hmono := running_mono sgn (trunc_log hash.length) hash (digest bit)
  obtain ⟨r, hr, hfull, hfirst⟩ := oracle_entry sgn hs hash (digest bit) g
  have hiff : (∀ t, 0 < t → t ≤ samples (trunc_log hash.length) hash.length →
        (running sgn (trunc_log hash.length) hash (digest bit) t : ℚ) ≤ g) ↔
      (full_distance sgn (trunc_log hash.length) hash (digest bit) : ℚ) ≤ g := by
    constructor
    · intro h
      exact h _ hNpos le_rfl
    · intro h t _ ht
      have : running sgn (trunc_log hash.length) hash (digest bit) t ≤
          full_distance sgn (trunc_log hash.length) hash (digest bit) := hmono ht
      exact le_trans (by exact_mod_cast this) h
  refine ⟨r, ?_, hiff, ?_, ?_, ?_, ?_⟩
  · intro fuel hfuel
    exact sha256_oracle_eq _ _ _ _ _ _ _ (hr fuel (by omega))
  · intro h
    exact hfull (hiff.2 h)
  · intro h
    obtain ⟨t, a, b, c, hbelow⟩ :=
      exists_first_exceed (f := fun t =>
        (running sgn (trunc_log hash.length) hash (digest bit) t : ℚ)) ⟨_, hNpos, le_rfl, h⟩
    have hrt := hfirst t a b c hbelow
    refine ⟨by rw [hrt]; exact c, by rw [hrt]; exact hmono b, t, a, b, hrt, hbelow⟩
  · intro hsmall
    exact (running_eq_sum sgn _ hash (digest bit) _ hsmall).1
  · intro k hk
    rcases Nat.lt_or_eq_of_le (hin k hk) with hlt | heq
    · exact Or.inl hlt
    · exact Or.inr ⟨heq, List.getD_eq_default _ _ (by omega)⟩

/-- Witness of C7: the target of 64 spaces, a digest of 64 exclamation marks and the
bound 5; the running sums are 1, 2, 3, ... and the oracle stops at 6. -/
theorem oracle_early_exit_witness :
    3 ≤ (toy_digest [32]).length ∧
      (∀ k, k < samples 4 (toy_digest [32]).length → k * 4 ≤ (toy_digest [33]).length) ∧
      ∃ r : Nat,
        (∀ fuel, (toy_digest [32]).length < fuel →
          sha256_oracle true toy_digest (fun _ => 4) fuel [33] (toy_digest [32]) 5 =
            some (r, toy_digest [33])) ∧
        ((∀ t, 0 < t → t ≤ samples 4 (toy_digest [32]).length →
            (running true 4 (toy_digest [32]) (toy_digest [33]) t : ℚ) ≤ 5) ↔
          (full_distance true 4 (toy_digest [32]) (toy_digest [33]) : ℚ) ≤ 5) ∧
        ((full_distance true 4 (toy_digest [32]) (toy_digest [33]) : ℚ) ≤ 5 →
          r = full_distance true 4 (toy_digest [32]) (toy_digest [33])) ∧
        (5 < (full_distance true 4 (toy_digest [32]) (toy_digest [33]) : ℚ) →
          (5 : ℚ) < (r : ℚ) ∧ r ≤ full_distance true 4 (toy_digest [32]) (toy_digest [33]) ∧
          ∃ t, 0 < t ∧ t ≤ samples 4 (toy_digest [32]).length ∧
            r = running true 4 (toy_digest [32]) (toy_digest [33]) t ∧
            ∀ u, 0 < u → u < t →
              (running true 4 (toy_digest [32]) (toy_digest [33]) u : ℚ) ≤ 5) ∧
        (255 * samples 4 (toy_digest [32]).length < 2 ^ 24 →
          full_distance true 4 (toy_digest [32]) (toy_digest [33]) =
            ∑ k in Finset.range (samples 4 (toy_digest [32]).length),
              char_dist true (toy_digest [32]) (toy_digest [33]) (k * 4)) ∧
        (∀ k, k < samples 4 (toy_digest [32]).length →
          k * 4 < (toy_digest [33]).length ∨
            (k * 4 = (toy_digest [33]).length ∧ char_at (toy_digest [33]) (k * 4) = 0)) :=
  ⟨by decide, sampled_within_toy,
    oracle_early_exit true toy_digest (fun _ => 4) [33] (toy_digest [32]) 5 (by decide)
      (by rw [show (toy_digest [32]).length = 64 from rfl]; exact_mod_cast floor_log_64.symm)
      sampled_within_toy⟩

theorem oracle_early_exit_example :
    sha256_oracle true toy_digest (fun _ => 4) 17 [33] (toy_digest [32]) 5 =
      some (6, toy_digest [33]) := by
  decide

/-! ## Lemmas on the driver -/

/-- The accumulator of the sampling loop never passes `2 ^ 33`: a binary32
value that large absorbs any further character difference. -/
theorem oracle_loop_le (sgn : Bool) (stride : Nat) (hash hash_hex_str : List (Fin 256))
    (global : ℚ) (fuel : Nat) :
    ∀ (i loc r : Nat), loc ≤ 2 ^ 33 →
      oracle_loop sgn stride hash hash_hex_str global fuel i loc = some r → r ≤ 2 ^ 33 := by
  induction fuel with
  | zero => intro i loc r _ h; simp [oracle_loop] at h
  | succ fuel ih =>
    intro i loc r hloc h
    rw [oracle_loop] at h
    have hacc : accumulate sgn hash hash_hex_str i loc ≤ 2 ^ 33 := by
      have := char_dist_le sgn hash hash_hex_str i
      exact f32_round_le_pow33 (by omega)
    split at h
    · simp only at h
      split at h
      · cases h; exact hacc
      · exact ih _ _ _ hacc h
    · cases h; exact hloc

theorem sha256_oracle_le (sgn : Bool) (digest : List Nat → List (Fin 256))
    (trunc_log : Nat → Nat) (fuel : Nat) (bit : List Nat) (hash : List (Fin 256)) (global : ℚ)
    {loc : Nat} {hex : List (Fin 256)}
    (h : sha256_oracle sgn digest trunc_log fuel bit hash global = some (loc, hex)) :
    loc ≤ 2 ^ 33 ∧ hex = digest bit := by
  unfold sha256_oracle at h
  simp only [Option.map_eq_some', Prod.mk.injEq] at h
  obtain ⟨r, hr, rfl, rfl⟩ := h
  exact ⟨oracle_loop_le sgn _ hash _ global fuel 0 0 r (by norm_num) hr, rfl⟩

theorem pow33_lt_FLT_MAX : 2 ^ 33 < FLT_MAX := by
  unfold FLT_MAX
  norm_num

theorem branch_accept {loc : Nat} (h : loc ≤ 2 ^ 33) : branch loc FLT_MAX = Branch.accept := by
  have := pow33_lt_FLT_MAX
  simp [branch, show loc < FLT_MAX by omega]

/-- What one pair evaluation does, in terms of the score `loc` the oracle
returned. -/
theorem pair_eval_some (sgn : Bool) (digest : List Nat → List (Fin 256))
    (trunc_log : Nat → Nat) (hash : List (Fin 256)) (n id fuel i j : Nat) (w w' : Worker)
    (h : pair_eval sgn digest trunc_log hash n id fuel i j w = some w') :
    ∃ loc, sha256_oracle sgn digest trunc_log fuel (step i j w.bit) hash (FLT_MAX : ℚ) =
        some (loc, digest (step i j w.bit)) ∧ loc ≤ 2 ^ 33 ∧
      w'.bit = step i j w.bit ∧ w'.aux = w.bit ∧
      w'.hash_hex_str = digest (step i j w.bit) ∧
      (loc < w.cursor → w'.cursor = loc ∧
        w'.out = w.out ++ [⟨id, loc,
          if loc = 0 then some (step i j w.bit, digest (step i j w.bit)) else none⟩] ∧
        w'.phase = if loc = 0 then Phase.exited else next_pair n i j) ∧
      (¬ loc < w.cursor → w'.cursor = w.cursor ∧ w'.out = w.out ∧
        w'.phase = next_pair n i j) := by
  unfold pair_eval at h
  simp only at h
  rcases ho : sha256_oracle sgn digest trunc_log fuel (step i j w.bit) hash (FLT_MAX : ℚ)
    with _ | ⟨loc, hex⟩
  · rw [ho] at h; simp at h
  · obtain ⟨hle, rfl⟩ := sha256_oracle_le _ _ _ _ _ _ _ ho
    rw [ho] at h
    simp only [branch_accept hle] at h
    refine ⟨loc, rfl, hle, ?_⟩
    by_cases hc : loc < w.cursor
    · by_cases h0 : loc = 0
      · subst h0
        simp only [hc, if_true, Option.some.injEq] at h
        subst h
        simp [hc]
      · simp only [hc, h0, if_true, if_false, Option.some.injEq] at h
        subst h
        simp [h0, hc]
    · simp only [hc, if_false, Option.some.injEq] at h
      subst h
      simp [hc]

/-- The three kinds of transition of `hess`. -/
theorem hess_step_cases (sgn : Bool) (digest : List Nat → List (Fin 256))
    (trunc_log : Nat → Nat) (hash : List (Fin 256)) (n id fuel : Nat) (w w' : Worker)
    (db db' : Finset Nat)
    (h : hess_step sgn digest trunc_log hash n id fuel w db = some (w', db')) :
    (w.phase = Phase.seeking ∧ w'.bit = (next_orbit w.bit db).2.1 ∧
        db' = (next_orbit w.bit db).2.2 ∧ w'.cursor = w.cursor ∧ w'.out = w.out ∧
        w'.phase = (if (next_orbit w.bit db).1 = true then
          (if 0 < n then Phase.exploring 0 0 else Phase.seeking) else Phase.returned)) ∨
    (∃ i j, w.phase = Phase.exploring i j ∧
        pair_eval sgn digest trunc_log hash n id fuel i j w = some w' ∧ db' = db) ∨
    ((w.phase = Phase.exited ∨ w.phase = Phase.returned) ∧ w' = w ∧ db' = db) := by
  unfold hess_step at h
  rcases hp : w.phase with _ | ⟨i, j⟩ | _ | _
  · left
    rw [hp] at h
    simp only at h
    rcases hr : next_orbit w.bit db with ⟨ok, b, d⟩
    rw [hr] at h
    cases ok <;>
    · simp only [Option.some.injEq, Prod.mk.injEq] at h
      obtain ⟨rfl, rfl⟩ := h
      simp
  · right; left
    rw [hp] at h
    simp only [Option.map_eq_some', Prod.mk.injEq] at h
    obtain ⟨w0, hw0, rfl, rfl⟩ := h
    exact ⟨i, j, rfl, hw0, rfl⟩
  · right; right
    rw [hp] at h
    simp only [Option.some.injEq, Prod.mk.injEq] at h
    exact ⟨Or.inl rfl, h.1.symm, h.2.symm⟩
  · right; right
    rw [hp] at h
    simp only [Option.some.injEq, Prod.mk.injEq] at h
    exact ⟨Or.inr rfl, h.1.symm, h.2.symm⟩

/-- A transition either prints nothing and keeps `cursor`, or lowers `cursor`
and prints the new value. -/
theorem hess_step_out (sgn : Bool) (digest : List Nat → List (Fin 256))
    (trunc_log : Nat → Nat) (hash : List (Fin 256)) (n id fuel : Nat) (w w' : Worker)
    (db db' : Finset Nat)
    (h : hess_step sgn digest trunc_log hash n id fuel w db = some (w', db')) :
    (w'.cursor = w.cursor ∧ w'.out = w.out) ∨
    (w'.cursor < w.cursor ∧ ∃ r : Report, r.cursor = w'.cursor ∧ w'.out = w.out ++ [r]) := by
  rcases hess_step_cases _ _ _ _ _ _ _ _ _ _ _ h with
    ⟨-, -, -, hc, ho, -⟩ | ⟨i, j, -, hpe, -⟩ | ⟨-, rfl, -⟩
  · exact Or.inl ⟨hc, ho⟩
  · obtain ⟨loc, -, -, -, -, -, hlt, hge⟩ := pair_eval_some _ _ _ _ _ _ _ _ _ _ _ hpe
    by_cases hc : loc < w.cursor
    · obtain ⟨h1, h2, -⟩ := hlt hc
      exact Or.inr ⟨by omega, _, h1.symm, h2⟩
    · obtain ⟨h1, h2, -⟩ := hge hc
      exact Or.inl ⟨h1, h2⟩
  · exact Or.inl ⟨rfl, rfl⟩

theorem hess_step_reports (sgn : Bool) (digest : List Nat → List (Fin 256))
    (trunc_log : Nat → Nat) (hash : List (Fin 256)) (n id fuel : Nat) (w w' : Worker)
    (db db' : Finset Nat)
    (h : hess_step sgn digest trunc_log hash n id fuel w db = some (w', db'))
    (hw : reports_decrease w) : reports_decrease w' := by
  rcases hess_step_out _ _ _ _ _ _ _ _ _ _ _ h with ⟨hc, ho⟩ | ⟨hc, r, hr, ho⟩
  · unfold reports_decrease
    rw [hc, ho]
    exact hw
  · obtain ⟨h1, h2⟩ := hw
    constructor
    · rw [ho, List.map_append, List.pairwise_append]
      refine ⟨h1, by simp, ?_⟩
      intro a ha b hb
      simp only [List.map_cons, List.map_nil, List.mem_singleton] at hb
      obtain ⟨x, hx, rfl⟩ := List.mem_map.1 ha
      have := h2 x hx
      show x.cursor > b
      omega
    · intro x hx
      rw [ho, List.mem_append, List.mem_singleton] at hx
      rcases hx with hx | rfl
      · have := h2 x hx; omega
      · omega

/-- C9: across every transition of one worker's `hess` the running best score `cursor`
never increases; a transition prints a report exactly when it is a pair evaluation whose
score `loc` is strictly below the current `cursor` (the report then carries `loc`, the
new `cursor`); hence in every reachable state the distances reported so far form a
strictly decreasing sequence. -/
theorem cursor_never_increases (sgn : Bool) (digest : List Nat → List (Fin 256))
    (trunc_log : Nat → Nat) (hash : List (Fin 256)) (n id : Nat) :
    (∀ (fuel : Nat) (w w' : Worker) (db db' : Finset Nat),
      hess_step sgn digest trunc_log hash n id fuel w db = some (w', db') →
        w'.cursor ≤ w.cursor ∧
        (∀ i j, w.phase = Phase.exploring i j →
          ∃ loc hex, sha256_oracle sgn digest trunc_log fuel (step i j w.bit) hash
              (FLT_MAX : ℚ) = some (loc, hex) ∧
            (loc < w.cursor → w'.cursor = loc ∧
              ∃ r : Report, r.cursor = loc ∧ w'.out = w.out ++ [r]) ∧
            (¬ loc < w.cursor → w'.cursor = w.cursor ∧ w'.out = w.out)) ∧
        ((∀ i j, w.phase ≠ Phase.exploring i j) →
          w'.cursor = w.cursor ∧ w'.out = w.out)) ∧
    (∀ (w : Worker) (db : Finset Nat), Reachable sgn digest trunc_log hash n id w db →
      (w.out.map Report.cursor).Pairwise (· > ·) ∧ ∀ r ∈ w.out, w.cursor ≤ r.cursor) := by
  constructor
  · intro fuel w w' db db' h
    refine ⟨?_, ?_, ?_⟩
    · rcases hess_step_out _ _ _ _ _ _ _ _ _ _ _ h with ⟨hc, -⟩ | ⟨hc, -⟩ <;> omega
    · intro i j hp
      rcases hess_step_cases _ _ _ _ _ _ _ _ _ _ _ h with
        ⟨hs, -⟩ | ⟨i', j', hp', hpe, -⟩ | ⟨hs | hs, -⟩
      · rw [hp] at hs; cases hs
      · rw [hp] at hp'
        cases hp'
        obtain ⟨loc, ho, -, -, -, -, hlt, hge⟩ := pair_eval_some _ _ _ _ _ _ _ _ _ _ _ hpe
        refine ⟨loc, _, ho, ?_, ?_⟩
        · intro hc
          obtain ⟨h1, h2, -⟩ := hlt hc
          exact ⟨h1, _, rfl, h2⟩
        · intro hc
          obtain ⟨h1, h2, -⟩ := hge hc
          exact ⟨h1, h2⟩
      · rw [hp] at hs; cases hs
      · rw [hp] at hs; cases hs
    · intro hne
      rcases hess_step_cases _ _ _ _ _ _ _ _ _ _ _ h with
        ⟨-, -, -, hc, ho, -⟩ | ⟨i', j', hp', -⟩ | ⟨-, rfl, -⟩
      · exact ⟨hc, ho⟩
      · exact absurd hp' (hne i' j')
      · exact ⟨rfl, rfl⟩
  · intro w db hreach
    induction hreach with
    | start db => exact ⟨by simp [hess_init], by simp [hess_init]⟩
    | move fuel _ hstep ih => exact hess_step_reports _ _ _ _ _ _ _ _ _ _ _ hstep ih
    | others _ _ ih => exact ih

/-- C10: in `hess`, whatever the candidate, the target string and the index pair, a score
returned by `sha256_oracle` under the fresh bound `FLT_MAX` is strictly below that bound,
so the loop was not left by pruning, the comparison at lines 103 and 122 takes the accept
arm and not the revert arm, and a pair evaluation leaves `step i j` of the candidate in
place, never the snapshot `aux`. -/
theorem revert_unreachable (sgn : Bool) (digest : List Nat → List (Fin 256))
    (trunc_log : Nat → Nat) (hash : List (Fin 256)) (n id fuel i j : Nat) (w : Worker) :
    (∀ bit loc hex, sha256_oracle sgn digest trunc_log fuel bit hash (FLT_MAX : ℚ) =
        some (loc, hex) →
      loc < FLT_MAX ∧ ¬ ((FLT_MAX : ℚ) < (loc : ℚ)) ∧
      branch loc FLT_MAX = Branch.accept ∧ branch loc FLT_MAX ≠ Branch.revert) ∧
    (∀ w', pair_eval sgn digest trunc_log hash n id fuel i j w = some w' →
      w'.bit = step i j w.bit) := by
  constructor
  · intro bit loc hex h
    obtain ⟨hle, -⟩ := sha256_oracle_le _ _ _ _ _ _ _ h
    have hlt : loc < FLT_MAX := lt_of_le_of_lt hle pow33_lt_FLT_MAX
    refine ⟨hlt, ?_, branch_accept hle, ?_⟩
    · rw [not_lt]
      exact_mod_cast hlt.le
    · rw [branch_accept hle]
      decide
  · intro w' h
    obtain ⟨loc, -, -, hb, -⟩ := pair_eval_some _ _ _ _ _ _ _ _ _ _ _ h
    exact hb

/-! ## The driver on candidates of length one -/

theorem running_le (sgn : Bool) (stride : Nat) (hash hash_hex_str : List (Fin 256)) (k : Nat) :
    running sgn stride hash hash_hex_str k ≤ 2 ^ 33 := by
  induction k with
  | zero => simp [running]
  | succ k ih =>
    have := char_dist_le sgn hash hash_hex_str (k * stride)
    exact f32_round_le_pow33 (by omega)

/-- Under the bound `FLT_MAX` and with a positive stride the oracle returns
the full sampled-sum distance. -/
theorem sha256_oracle_flt_max (sgn : Bool) (digest : List Nat → List (Fin 256))
    (trunc_log : Nat → Nat) (fuel : Nat) (bit : List Nat) (hash : List (Fin 256))
    (hs : 1 ≤ trunc_log hash.length)
    (hfuel : samples (trunc_log hash.length) hash.length < fuel) :
    sha256_oracle sgn digest trunc_log fuel bit hash (FLT_MAX : ℚ) =
      some (full_distance sgn (trunc_log hash.length) hash (digest bit), digest bit) := by
  apply sha256_oracle_eq
  obtain ⟨r, hr, hfull, -⟩ := oracle_entry sgn hs hash (digest bit) (FLT_MAX : ℚ)
  rw [hr fuel hfuel, hfull]
  intro t _ _
  have h1 := running_le sgn (trunc_log hash.length) hash (digest bit) t
  have h2 := pow33_lt_FLT_MAX
  exact_mod_cast (show running sgn (trunc_log hash.length) hash (digest bit) t ≤ FLT_MAX by omega)

theorem next_orbit_single (b : Nat) (db : Finset Nat) :
    next_orbit [b] db =
      if hashing [b] ∈ db then (false, [b], db) else (true, [b], insert (hashing [b]) db) := by
  by_cases h : hashing [b] ∈ db
  · simp [next_orbit, List.range_succ, orbit_outer, orbit_inner, claim_present h, step_self, h]
  · simp [next_orbit, List.range_succ, orbit_outer, orbit_inner, claim_absent h, h]

theorem hess_run_step (sgn : Bool) (digest : List Nat → List (Fin 256))
    (trunc_log : Nat → Nat) (hash : List (Fin 256)) (n id fuel : Nat) {w w' : Worker}
    {db db' : Finset Nat}
    (h : hess_step sgn digest trunc_log hash n id fuel w db = some (w', db')) (k : Nat) :
    hess_run sgn digest trunc_log hash n id fuel (k + 1) w db =
      hess_run sgn digest trunc_log hash n id fuel k w' db' := by
  simp [hess_run, h]

theorem hess_run_final (sgn : Bool) (digest : List Nat → List (Fin 256))
    (trunc_log : Nat → Nat) (hash : List (Fin 256)) (n id fuel : Nat) (w : Worker)
    (db : Finset Nat) (h : w.phase = Phase.exited ∨ w.phase = Phase.returned) (k : Nat) :
    hess_run sgn digest trunc_log hash n id fuel k w db = some (w, db) := by
  induction k with
  | zero => rfl
  | succ k ih =>
    have : hess_step sgn digest trunc_log hash n id fuel w db = some (w, db) := by
      unfold hess_step
      rcases h with h | h <;> rw [h]
    rw [hess_run_step _ _ _ _ _ _ _ this, ih]

theorem hess_step_stuck (sgn : Bool) (digest : List Nat → List (Fin 256))
    (trunc_log : Nat → Nat) (hash : List (Fin 256)) (id fuel : Nat) (w w' : Worker)
    (db db' : Finset Nat)
    (h : hess_step sgn digest trunc_log hash 1 id fuel w db = some (w', db'))
    (hw : stuck_at_space w) : stuck_at_space w' := by
  obtain ⟨hbit, hph, hout⟩ := hw
  rcases hess_step_cases _ _ _ _ _ _ _ _ _ _ _ h with
    ⟨-, hb, -, -, ho, hp⟩ | ⟨i, j, hp, hpe, -⟩ | ⟨-, rfl, -⟩
  · refine ⟨?_, ?_, ?_⟩
    · rw [hb, hbit, next_orbit_single]; split <;> rfl
    · intro i j hij
      rw [hp] at hij
      split at hij
      · simp only [Nat.lt_one_iff, if_true, Phase.exploring.injEq] at hij
        exact ⟨hij.1.symm, hij.2.symm⟩
      · cases hij
    · rw [ho]; exact hout
  · obtain ⟨rfl, rfl⟩ := hph i j hp
    obtain ⟨loc, -, -, hb, -, -, hlt, hge⟩ := pair_eval_some _ _ _ _ _ _ _ _ _ _ _ hpe
    rw [step_self, hbit] at hb
    refine ⟨hb, ?_, ?_⟩
    · intro i j hij
      by_cases hc : loc < w.cursor
      · rw [(hlt hc).2.2] at hij
        split at hij
        · cases hij
        · simp [next_pair] at hij
      · rw [(hge hc).2.2] at hij
        simp [next_pair] at hij
    · intro r hr c hx hwin
      by_cases hc : loc < w.cursor
      · rw [(hlt hc).2.1, List.mem_append, List.mem_singleton] at hr
        rcases hr with hr | rfl
        · exact hout r hr c hx hwin
        · simp only [step_self, hbit] at hwin
          split at hwin
          · simp only [Option.some.injEq, Prod.mk.injEq] at hwin
            exact hwin.1.symm
          · cases hwin
      · rw [(hge hc).2.1] at hr
        exact hout r hr c hx hwin
  · exact ⟨hbit, hph, hout⟩

theorem hess_run_stuck (sgn : Bool) (digest : List Nat → List (Fin 256))
    (trunc_log : Nat → Nat) (hash : List (Fin 256)) (id fuel k : Nat) :
    ∀ (w w' : Worker) (db db' : Finset Nat),
      hess_run sgn digest trunc_log hash 1 id fuel k w db = some (w', db') →
      stuck_at_space w → stuck_at_space w' := by
  induction k with
  | zero =>
    intro w w' db db' h hw
    simp only [hess_run, Option.some.injEq, Prod.mk.injEq] at h
    rw [← h.1]; exact hw
  | succ k ih =>
    intro w w' db db' h hw
    rcases hs : hess_step sgn digest trunc_log hash 1 id fuel w db with _ | ⟨w1, db1⟩
    · simp [hess_run, hs] at h
    · rw [hess_run_step _ _ _ _ _ _ _ hs] at h
      exact ih w1 w' db1 db' h (hess_step_stuck _ _ _ _ _ _ _ _ _ _ hs hw)

theorem hess_init_stuck : stuck_at_space (hess_init 1) := by
  refine ⟨rfl, ?_, ?_⟩
  · intro i j h; cases h
  · intro r hr; simp [hess_init] at hr

/-- Refutation of C8 as stated: whatever the digest primitive, in no run of `hess` with
candidate length 1, one worker, an empty table and the digest string of `a` (byte 97) as
target is there a report of distance 0 with winning candidate `a`. -/
theorem hess_length_one_never_finds_a :
    ¬ ∃ (sgn : Bool) (digest : List Nat → List (Fin 256)) (trunc_log : Nat → Nat)
        (id fuel k : Nat) (w : Worker) (db : Finset Nat),
        hess_run sgn digest trunc_log (digest [97]) 1 id fuel k (hess_init 1) ∅ = some (w, db) ∧
        ∃ r ∈ w.out, r.cursor = 0 ∧ r.winner = some ([97], digest [97]) := by
  rintro ⟨sgn, digest, trunc_log, id, fuel, k, w, db, hrun, r, hr, -, hwin⟩
  have hstuck := hess_run_stuck _ _ _ _ _ _ _ _ _ _ _ hrun hess_init_stuck
  have := hstuck.2.2 r hr _ _ hwin
  exact absurd this (by decide)

theorem hess_step_seeking_present (sgn : Bool) (digest : List Nat → List (Fin 256))
    (trunc_log : Nat → Nat) (hash : List (Fin 256)) (n id fuel : Nat) (w : Worker)
    (db : Finset Nat) (b : Nat) (hp : w.phase = Phase.seeking) (hb : w.bit = [b])
    (hin : hashing [b] ∈ db) :
    hess_step sgn digest trunc_log hash n id fuel w db =
      some ({ w with phase := Phase.returned }, db) := by
  unfold hess_step
  rw [hp]
  simp only
  rw [hb, next_orbit_single, if_pos hin]

theorem length_one_end_final (digest : List Nat → List (Fin 256)) (id d : Nat) :
    (length_one_end digest id d).phase = Phase.exited ∨
      (length_one_end digest id d).phase = Phase.returned := by
  unfold length_one_end
  by_cases h : d = 0
  · left; simp only [h, if_true]
  · right; simp only [h, if_false]

/-- C8 as amended: with the 64-character digest string of `a` as target, candidate length
1, one worker and an empty table, `hess` ends within three transitions (given oracle fuel
above 16): the candidate is the single space throughout, exactly one report is printed,
with distance `space_score` (the sampled distance between the target and the digest of
the space), naming the space as winner when that distance is 0; then `hess` has exited
(distance 0) or returned (the second `next_orbit` fails).  In no run is a candidate other
than the space, in particular `a`, reported as winner. -/
theorem hess_length_one (sgn : Bool) (digest : List Nat → List (Fin 256))
    (trunc_log : Nat → Nat) (id : Nat)
    (hlen : (digest [97]).length = 64)
    (hlog : trunc_log (digest [97]).length = ⌊Real.log ((digest [97]).length : ℝ)⌋₊) :
    (∀ fuel k, 16 < fuel → 3 ≤ k →
      hess_run sgn digest trunc_log (digest [97]) 1 id fuel k (hess_init 1) ∅ =
        some (length_one_end digest id (space_score sgn digest), {hashing [32]})) ∧
    (∀ fuel k w db,
      hess_run sgn digest trunc_log (digest [97]) 1 id fuel k (hess_init 1) ∅ = some (w, db) →
      w.bit = [32] ∧ ∀ r ∈ w.out, ∀ c h, r.winner = some (c, h) → c = [32]) := by
  constructor
  · intro fuel k hfuel hk
    have hs : trunc_log (digest [97]).length = 4 := by
      rw [hlog, hlen]
      exact_mod_cast floor_log_64
    have hN : samples 4 (digest [97]).length = 16 := by rw [hlen]; rfl
    have hd : full_distance sgn 4 (digest [97]) (digest [32]) = space_score sgn digest := by
      rw [full_distance, hN, (running_eq_sum sgn 4 _ _ 16 (by norm_num)).1]
      exact Finset.sum_congr rfl fun k _ => by rw [Nat.mul_comm]
    have hle : space_score sgn digest ≤ 2 ^ 33 := by
      rw [← hd]; exact running_le _ _ _ _ _
    have horacle : sha256_oracle sgn digest trunc_log fuel [32] (digest [97]) (FLT_MAX : ℚ) =
        some (space_score sgn digest, digest [32]) := by
      rw [sha256_oracle_flt_max sgn digest trunc_log fuel [32] (digest [97])
        (by rw [hs]; norm_num) (by rw [hs, hN]; exact hfuel), hs, hd]
    have hlt : space_score sgn digest < FLT_MAX := lt_of_le_of_lt hle pow33_lt_FLT_MAX
    obtain ⟨k, rfl⟩ : ∃ k', k = k' + 3 := ⟨k - 3, by omega⟩
    have h1 : hess_step sgn digest trunc_log (digest [97]) 1 id fuel (hess_init 1) ∅ =
        some ({ hess_init 1 with phase := Phase.exploring 0 0 }, {hashing [32]}) := by
      simp [hess_step, hess_init, next_orbit_single]
    rw [hess_run_step _ _ _ _ _ _ _ h1]
    by_cases h0 : space_score sgn digest = 0
    · have h2 : hess_step sgn digest trunc_log (digest [97]) 1 id fuel
          { hess_init 1 with phase := Phase.exploring 0 0 } {hashing [32]} =
          some (length_one_end digest id (space_score sgn digest), {hashing [32]}) := by
        simp only [hess_step, pair_eval, hess_init, step_self, List.replicate, horacle,
          branch_accept hle, hlt, if_true, Option.map_some']
        simp only [h0, length_one_end, if_true, Option.map_some', List.nil_append]
      rw [hess_run_step _ _ _ _ _ _ _ h2]
      exact hess_run_final _ _ _ _ _ _ _ _ _ (length_one_end_final _ _ _) _
    · have h2 : hess_step sgn digest trunc_log (digest [97]) 1 id fuel
          { hess_init 1 with phase := Phase.exploring 0 0 } {hashing [32]} =
          some ({ length_one_end digest id (space_score sgn digest) with
            phase := Phase.seeking }, {hashing [32]}) := by
        simp only [hess_step, pair_eval, hess_init, step_self, List.replicate, horacle,
          branch_accept hle, hlt, if_true, Option.map_some', h0, if_false, length_one_end,
          next_pair]
        simp
      have h3 : hess_step sgn digest trunc_log (digest [97]) 1 id fuel
          { length_one_end digest id (space_score sgn digest) with phase := Phase.seeking }
          {hashing [32]} =
          some (length_one_end digest id (space_score sgn digest), {hashing [32]}) := by
        rw [hess_step_seeking_present _ _ _ _ _ _ _ _ _ 32 rfl rfl (Finset.mem_singleton_self _)]
        simp only [length_one_end, h0, if_false]
      rw [hess_run_step _ _ _ _ _ _ _ h2, hess_run_step _ _ _ _ _ _ _ h3]
      exact hess_run_final _ _ _ _ _ _ _ _ _ (length_one_end_final _ _ _) _
  · intro fuel k w db hrun
    have hstuck := hess_run_stuck _ _ _ _ _ _ _ _ _ _ _ hrun hess_init_stuck
    exact ⟨hstuck.1, hstuck.2.2⟩

/-- Witness of C8 as amended: with a digest of 64 copies of the candidate's first byte the
single report has distance `16 * (97 - 32) = 1040`, after which `hess` has returned. -/
theorem hess_length_one_witness :
    (toy_digest [97]).length = 64 ∧
      hess_run true toy_digest (fun _ => 4) (toy_digest [97]) 1 0 17 3 (hess_init 1) ∅ =
        some (length_one_end toy_digest 0 1040, {hashing [32]}) :=
  ⟨rfl, ((hess_length_one true toy_digest (fun _ => 4) 0 rfl
      (by rw [show (toy_digest [97]).length = 64 from rfl]; exact_mod_cast floor_log_64.symm)).1
        17 3 (by decide) (by decide)).trans
      (by rw [show space_score true toy_digest = 1040 from by decide])⟩

/-- A pair evaluation completes for every target of length at least 3, given
oracle fuel above the target's length. -/
theorem pair_eval_returns (sgn : Bool) (digest : List Nat → List (Fin 256))
    (trunc_log : Nat → Nat) (hash : List (Fin 256)) (n id fuel i j : Nat) (w : Worker)
    (h3 : 3 ≤ hash.length)
    (hlog : trunc_log hash.length = ⌊Real.log (hash.length : ℝ)⌋₊)
    (hfuel : hash.length < fuel) :
    ∃ w', pair_eval sgn digest trunc_log hash n id fuel i j w = some w' := by
  have hs : 1 ≤ trunc_log hash.length := by rw [hlog]; exact one_le_floor_log h3
  have hN := samples_le hs hash.length
  have ho := sha256_oracle_flt_max sgn digest trunc_log fuel (step i j w.bit) hash hs (by omega)
  have hle := (sha256_oracle_le _ _ _ _ _ _ _ ho).1
  simp only [pair_eval, ho, branch_accept hle]
  split
  · split <;> exact ⟨_, rfl⟩
  · exact ⟨_, rfl⟩

/-- A run of `hess` on candidates of length two that prints two reports, of
distances 528 and 0, and exits with the winner `A` followed by a space. -/
theorem hess_run_example :
    (hess_run true toy_digest (fun _ => 4) (toy_digest [65]) 2 7 17 3 (hess_init 2) ∅).map
        (fun s => (s.1.phase, s.1.bit, s.1.out)) =
      some (Phase.exited, [65, 32],
        [⟨7, 528, none⟩, ⟨7, 0, some ([65, 32], toy_digest [65])⟩]) := by
  decide

/-! ## Further claims on the local transform and the fingerprint -/

/-- C11: applying `step` twice with the same index pair does not in general restore the
candidate: on the candidate of two spaces, `step 0 1` applied twice gives `[65, 65]`. -/
theorem step_twice_differs :
    ∃ (bit : List Nat) (i j : Nat), (∀ x ∈ bit, 32 ≤ x ∧ x < 127) ∧ i < bit.length ∧
      j < bit.length ∧ step i j (step i j bit) ≠ bit :=
  ⟨[32, 32], 0, 1, by decide, by decide, by decide, by decide⟩

theorem hash_round_eq_mix (h k : Nat) (hk : k < 256) : hash_round h k = mix h k := by
  unfold hash_round mix
  have h1 : (k + 0x9e3779b9) % 2 ^ 32 = k + 0x9e3779b9 := Nat.mod_eq_of_lt (by omega)
  rw [h1, Nat.add_right_comm (k + 0x9e3779b9) ((h <<< 6) % 2 ^ 64) (h >>> 2), Nat.add_mod_mod,
    Nat.add_right_comm (k + 0x9e3779b9) (h >>> 2) (h <<< 6)]

/-- C12: the fingerprint of a candidate (bytes below 256) is the left-to-right fold, from
0, of `h ↦ h XOR ((byte + 0x9e3779b9 + (h << 6) + (h >> 2)) mod 2 ^ 64)` over its bytes; it
is a function of the byte content alone, so equal byte sequences have equal fingerprints. -/
theorem hashing_fold (C : List Nat) (hC : ∀ b ∈ C, b < 256) :
    hashing C = C.foldl mix 0 ∧ ∀ C' : List Nat, C' = C → hashing C' = hashing C := by
  refine ⟨?_, fun C' h => by rw [h]⟩
  unfold hashing
  exact List.foldl_ext _ _ _ fun a b hb => hash_round_eq_mix a b (hC b hb)

/-- Witness of C12: the fingerprint of the two-byte candidate `a `. -/
theorem hashing_fold_witness :
    hashing [97, 32] = [97, 32].foldl mix 0 ∧
      ∀ C' : List Nat, C' = [97, 32] → hashing C' = hashing [97, 32] :=
  hashing_fold [97, 32] (by decide)

/-! ## The sweep of the orbit generator -/

theorem orbit_state_length (bit : List Nat) (k : Nat) :
    (orbit_state bit k).length = bit.length := by
  induction k with
  | zero => rfl
  | succ k ih => rw [orbit_state, step_length, ih]

theorem orbit_state_succ_at (bit : List Nat) {i j : Nat} (hj : j < bit.length) :
    orbit_state bit (i * bit.length + j + 1) =
      step i j (orbit_state bit (i * bit.length + j)) := by
  have hdiv : (i * bit.length + j) / bit.length = i :=
    Nat.div_eq_of_lt_le (Nat.le_add_right _ _) (by rw [Nat.succ_mul]; omega)
  have hmod : (i * bit.length + j) % bit.length = j := by
    rw [Nat.add_comm, Nat.add_mul_mod_self_right, Nat.mod_eq_of_lt hj]
  rw [orbit_state, hdiv, hmod]

/-- The inner loop for row `i`, entered at column `j`, when every state of the
rest of the row has its fingerprint in the table. -/
theorem orbit_inner_all_present (bit : List Nat) (db : Finset Nat) (i : Nat) (m : Nat) :
    ∀ j, j + m = bit.length →
      (∀ k, i * bit.length + j ≤ k → k < i * bit.length + bit.length →
        hashing (orbit_state bit k) ∈ db) →
      orbit_inner i (List.range' j m) (orbit_state bit (i * bit.length + j)) db =
        (false, orbit_state bit (i * bit.length + bit.length), db) := by
  induction m with
  | zero =>
    intro j hj _
    have : j = bit.length := by omega
    subst this
    simp [orbit_inner]
  | succ m ih =>
    intro j hj hall
    have hjlt : j < bit.length := by omega
    have hpres := hall (i * bit.length + j) le_rfl (by omega)
    rw [List.range'_succ, orbit_inner, claim_present hpres]
    simp only
    rw [← orbit_state_succ_at bit hjlt, Nat.add_assoc]
    exact ih (j + 1) (by omega) fun k h1 h2 => hall k (by omega) h2

/-- The inner loop for row `i`, entered at column `j`, when state `k` of the
rest of the row is the first whose fingerprint is absent. -/
theorem orbit_inner_first_absent (bit : List Nat) (db : Finset Nat) (i : Nat) (m : Nat) :
    ∀ j, j + m = bit.length →
      ∀ k, i * bit.length + j ≤ k → k < i * bit.length + bit.length →
        hashing (orbit_state bit k) ∉ db →
        (∀ k', i * bit.length + j ≤ k' → k' < k → hashing (orbit_state bit k') ∈ db) →
        orbit_inner i (List.range' j m) (orbit_state bit (i * bit.length + j)) db =
          (true, orbit_state bit k, insert (hashing (orbit_state bit k)) db) := by
  induction m with
  | zero => intro j hj k h1 h2; omega
  | succ m ih =>
    intro j hj k h1 h2 habs hbefore
    have hjlt : j < bit.length := by omega
    rcases Nat.eq_or_lt_of_le h1 with heq | hlt
    · subst heq
      rw [List.range'_succ, orbit_inner, claim_absent habs]
    · have hpres := hbefore (i * bit.length + j) le_rfl hlt
      rw [List.range'_succ, orbit_inner, claim_present hpres]
      simp only
      rw [← orbit_state_succ_at bit hjlt, Nat.add_assoc]
      exact ih (j + 1) (by omega) k (by omega) h2 habs fun k' h3 h4 =>
        hbefore k' (by omega) h4

theorem orbit_outer_all_present (bit : List Nat) (db : Finset Nat) (m : Nat) :
    ∀ i, i + m = bit.length →
      (∀ k, i * bit.length ≤ k → k < bit.length * bit.length →
        hashing (orbit_state bit k) ∈ db) →
      orbit_outer (List.range' i m) (orbit_state bit (i * bit.length)) db =
        (false, orbit_state bit (bit.length * bit.length), db) := by
  induction m with
  | zero =>
    intro i hi _
    have : i = bit.length := by omega
    subst this
    simp [orbit_outer]
  | succ m ih =>
    intro i hi hall
    have hrow : i * bit.length + bit.length ≤ bit.length * bit.length := by
      calc i * bit.length + bit.length = (i + 1) * bit.length := by rw [Nat.succ_mul]
        _ ≤ bit.length * bit.length := Nat.mul_le_mul_right _ (by omega)
    have hin := orbit_inner_all_present bit db i bit.length 0 (by simp)
      fun k h1 h2 => hall k (by omega) (by omega)
    rw [List.range'_succ, orbit_outer, orbit_state_length, List.range_eq_range']
    rw [Nat.add_zero] at hin
    rw [hin]
    simp only
    rw [← Nat.succ_mul]
    exact ih (i + 1) (by omega) fun k h1 h2 => hall k (by rw [Nat.succ_mul] at h1; omega) h2

theorem orbit_outer_first_absent (bit : List Nat) (db : Finset Nat) (m : Nat) :
    ∀ i, i + m = bit.length →
      ∀ k, i * bit.length ≤ k → k < bit.length * bit.length →
        hashing (orbit_state bit k) ∉ db →
        (∀ k', i * bit.length ≤ k' → k' < k → hashing (orbit_state bit k') ∈ db) →
        orbit_outer (List.range' i m) (orbit_state bit (i * bit.length)) db =
          (true, orbit_state bit k, insert (hashing (orbit_state bit k)) db) := by
  induction m with
  | zero =>
    intro i hi k h1 h2
    have : i = bit.length := by omega
    subst this
    omega
  | succ m ih =>
    intro i hi k h1 h2 habs hbefore
    rw [List.range'_succ, orbit_outer, orbit_state_length, List.range_eq_range']
    rcases Nat.lt_or_ge k (i * bit.length + bit.length) with hk | hk
    · have hin := orbit_inner_first_absent bit db i bit.length 0 (by simp) k
        (by omega) hk habs fun k' h3 h4 => hbefore k' (by omega) h4
      rw [Nat.add_zero] at hin
      rw [hin]
    · have hin := orbit_inner_all_present bit db i bit.length 0 (by simp)
        fun k' h3 h4 => hbefore k' (by omega) (by omega)
      rw [Nat.add_zero] at hin
      rw [hin]
      simp only
      rw [← Nat.succ_mul]
      exact ih (i + 1) (by omega) k (by rw [Nat.succ_mul]; omega) h2 habs fun k' h3 h4 =>
        hbefore k' (by rw [Nat.succ_mul] at h3; omega) h4

/-- A sweep that finds every fingerprint present fails and leaves the last
state. -/
theorem next_orbit_all_present (bit : List Nat) (db : Finset Nat)
    (hall : ∀ k, k < bit.length * bit.length → hashing (orbit_state bit k) ∈ db) :
    next_orbit bit db = (false, orbit_state bit (bit.length * bit.length), db) := by
  have := orbit_outer_all_present bit db bit.length 0 (by simp) fun k _ h => hall k h
  rw [Nat.zero_mul] at this
  rw [next_orbit, List.range_eq_range']
  exact this

/-- A sweep succeeds at the first state whose fingerprint is absent. -/
theorem next_orbit_first_absent (bit : List Nat) (db : Finset Nat) (k : Nat)
    (hk : k < bit.length * bit.length) (habs : hashing (orbit_state bit k) ∉ db)
    (hbefore : ∀ k', k' < k → hashing (orbit_state bit k') ∈ db) :
    next_orbit bit db =
      (true, orbit_state bit k, insert (hashing (orbit_state bit k)) db) := by
  have := orbit_outer_first_absent bit db bit.length 0 (by simp) k (by simp) hk habs
    fun k' _ h => hbefore k' h
  rw [Nat.zero_mul] at this
  rw [next_orbit, List.range_eq_range']
  exact this

/-- The last pair of a sweep is `(L - 1, L - 1)`, on which `step` does
nothing: the last two states are equal. -/
theorem orbit_state_last (bit : List Nat) (hne : bit ≠ []) :
    orbit_state bit (bit.length * bit.length) =
      orbit_state bit (bit.length * bit.length - 1) ∧
    bit.length * bit.length - 1 < bit.length * bit.length := by
  obtain ⟨n, hn⟩ : ∃ n, bit.length = n + 1 :=
    Nat.exists_eq_succ_of_ne_zero (by simpa using hne)
  have hsq : bit.length * bit.length = n * bit.length + n + 1 := by
    rw [hn]; ring
  have hstep := orbit_state_succ_at bit (i := n) (j := n) (by omega)
  rw [step_self] at hstep
  rw [hsq]
  exact ⟨hstep, by omega⟩

/-- C13: with `s` the states `orbit_state bit` (`s 0` the candidate, `s (k + 1)` the
`step` of `s k` at the `k`-th pair of `[0, L) × [0, L)` in row-major order), `next_orbit`
returns `true` exactly when some `s k`, `k < L * L`, has a fingerprint absent from the
table; it then leaves the candidate `s k` for the least such `k` and inserts its
fingerprint; otherwise it returns `false`, leaves `s (L * L)` and the table unchanged.
The empty candidate always yields `false`. -/
theorem next_orbit_sweep (bit : List Nat) (db : Finset Nat) :
    ((next_orbit bit db).1 = true ↔
      ∃ k, k < bit.length * bit.length ∧ hashing (orbit_state bit k) ∉ db) ∧
    (∀ k, k < bit.length * bit.length → hashing (orbit_state bit k) ∉ db →
      (∀ k', k' < k → hashing (orbit_state bit k') ∈ db) →
      next_orbit bit db =
        (true, orbit_state bit k, insert (hashing (orbit_state bit k)) db)) ∧
    ((∀ k, k < bit.length * bit.length → hashing (orbit_state bit k) ∈ db) →
      next_orbit bit db = (false, orbit_state bit (bit.length * bit.length), db)) ∧
    next_orbit [] db = (false, [], db) := by
  refine ⟨⟨?_, ?_⟩, next_orbit_first_absent bit db, next_orbit_all_present bit db, rfl⟩
  · intro htrue
    by_contra hnone
    push_neg at hnone
    rw [next_orbit_all_present bit db hnone] at htrue
    cases htrue
  · intro hex
    classical
    have hspec := Nat.find_spec hex
    rw [next_orbit_first_absent bit db (Nat.find hex) hspec.1 hspec.2 fun k' hk' => by
      by_contra hcon
      exact Nat.find_min hex hk' ⟨by omega, hcon⟩]

/-- C19: after `next_orbit` returns on a non-empty candidate, with `true` or with `false`,
the fingerprint of the candidate as the call leaves it is in the table; on `false` the
candidate left is the last state that was checked, `step (L - 1) (L - 1)` being a no-op. -/
theorem next_orbit_leaves_visited (bit : List Nat) (db : Finset Nat) (hne : bit ≠ []) :
    hashing (next_orbit bit db).2.1 ∈ (next_orbit bit db).2.2 ∧
    ((next_orbit bit db).1 = false →
      (next_orbit bit db).2.1 = orbit_state bit (bit.length * bit.length - 1)) := by
  by_cases hall : ∀ k, k < bit.length * bit.length → hashing (orbit_state bit k) ∈ db
  · obtain ⟨hlast, hlt⟩ := orbit_state_last bit hne
    rw [next_orbit_all_present bit db hall]
    refine ⟨?_, fun _ => hlast⟩
    show hashing (orbit_state bit (bit.length * bit.length)) ∈ db
    rw [hlast]
    exact hall _ hlt
  · have heff := next_orbit_effect bit db
    have htrue : (next_orbit bit db).1 = true := by
      by_contra hf
      apply hall
      intro k hk
      by_contra habs
      classical
      have hex : ∃ k, k < bit.length * bit.length ∧ hashing (orbit_state bit k) ∉ db :=
        ⟨k, hk, habs⟩
      have hspec := Nat.find_spec hex
      rw [next_orbit_first_absent bit db (Nat.find hex) hspec.1 hspec.2 fun k' hk' => by
        by_contra hcon
        exact Nat.find_min hex hk' ⟨by omega, hcon⟩] at hf
      exact hf rfl
    refine ⟨?_, fun h => by rw [htrue] at h; cases h⟩
    rw [(heff.1 htrue).2]
    exact Finset.mem_insert_self _ _

/-- Witness of C19: the one-space candidate on a table that already holds its
fingerprint; the sweep fails and leaves the space, which is in the table. -/
theorem next_orbit_leaves_visited_witness :
    [32] ≠ ([] : List Nat) ∧
      hashing (next_orbit [32] {hashing [32]}).2.1 ∈ (next_orbit [32] {hashing [32]}).2.2 ∧
      ((next_orbit [32] {hashing [32]}).1 = false →
        (next_orbit [32] {hashing [32]}).2.1 =
          orbit_state [32] ([32].length * [32].length - 1)) :=
  ⟨by decide, next_orbit_leaves_visited [32] {hashing [32]} (by decide)⟩

/-! ## Termination of the digest oracle -/

theorem running_succ_zero (sgn : Bool) (hash hash_hex_str : List (Fin 256)) (k : Nat) :
    accumulate sgn hash hash_hex_str 0 (running sgn 0 hash hash_hex_str k) =
      running sgn 0 hash hash_hex_str (k + 1) := by
  rw [running, Nat.mul_zero]

/-- With stride 0 the loop samples position 0 again and again; while no
running sum exceeds the bound it does not return. -/
theorem oracle_loop_stuck (sgn : Bool) (hash hash_hex_str : List (Fin 256)) (global : ℚ)
    (hlen : 0 < hash.length) (fuel : Nat) :
    ∀ k, (∀ t, k < t → (running sgn 0 hash hash_hex_str t : ℚ) ≤ global) →
      oracle_loop sgn 0 hash hash_hex_str global fuel 0 (running sgn 0 hash hash_hex_str k) =
        none := by
  induction fuel with
  | zero => intro k _; rfl
  | succ fuel ih =>
    intro k hall
    rw [oracle_loop, if_pos hlen]
    simp only [running_succ_zero]
    rw [if_neg (not_lt.2 (hall (k + 1) (by omega)))]
    exact ih (k + 1) fun t ht => hall t (by omega)

/-- With stride 0 the loop returns the first running sum that exceeds the
bound, when there is one. -/
theorem oracle_loop_stride_zero (sgn : Bool) (hash hash_hex_str : List (Fin 256)) (global : ℚ)
    (hlen : 0 < hash.length) (m : Nat) :
    ∀ k, global < (running sgn 0 hash hash_hex_str (k + m + 1) : ℚ) →
      (∀ u, k < u → u < k + m + 1 → (running sgn 0 hash hash_hex_str u : ℚ) ≤ global) →
      ∀ extra, oracle_loop sgn 0 hash hash_hex_str global (m + 1 + extra) 0
          (running sgn 0 hash hash_hex_str k) =
        some (running sgn 0 hash hash_hex_str (k + m + 1)) := by
  induction m with
  | zero =>
    intro k hgt _ extra
    rw [show 0 + 1 + extra = extra + 1 by omega, oracle_loop, if_pos hlen]
    simp only [running_succ_zero]
    rw [if_pos hgt]
  | succ m ih =>
    intro k hgt hbelow extra
    rw [show m + 1 + 1 + extra = (m + 1 + extra) + 1 by omega, oracle_loop, if_pos hlen]
    simp only [running_succ_zero]
    rw [if_neg (not_lt.2 (hbelow (k + 1) (by omega) (by omega)))]
    have := ih (k + 1) (by rw [show k + 1 + m + 1 = k + (m + 1) + 1 by omega]; exact hgt)
      (fun u h1 h2 => hbelow u (by omega) (by omega)) extra
    rw [show k + 1 + m + 1 = k + (m + 1) + 1 by omega] at this
    exact this

theorem floor_log_small {n : Nat} (h : n ≤ 2) : ⌊Real.log (n : ℝ)⌋₊ = 0 := by
  rw [Nat.floor_eq_zero]
  have h2 : Real.log 2 < 0.6931471808 := Real.log_two_lt_d9
  have hle : Real.log (n : ℝ) ≤ Real.log 2 := by
    rcases Nat.eq_zero_or_pos n with h0 | hpos
    · rw [h0, Nat.cast_zero, Real.log_zero]
      exact Real.log_nonneg (by norm_num)
    · exact Real.log_le_log (by exact_mod_cast hpos) (by exact_mod_cast h)
  have : (0.6931471808 : ℝ) < 1 := by norm_num
  linarith

/-- Refutation of C15 as stated: for the one-character target equal to the digest's first
character, and for the two-character target likewise, under the bound 0 the oracle is
still running after any number of iterations (the stride `⌊ln 1⌋ = ⌊ln 2⌋` is 0 and the
running sum stays 0). -/
theorem oracle_not_total :
    ((fun _ : Nat => 0) 1 = ⌊Real.log ((1 : ℕ) : ℝ)⌋₊ ∧
      ∀ fuel, sha256_oracle true toy_digest (fun _ => 0) fuel [32] [32] 0 = none) ∧
    ((fun _ : Nat => 0) 2 = ⌊Real.log ((2 : ℕ) : ℝ)⌋₊ ∧
      ∀ fuel, sha256_oracle true toy_digest (fun _ => 0) fuel [32] [32, 32] 0 = none) := by
  have hrun : ∀ (hash : List (Fin 256)), char_dist true hash (toy_digest [32]) 0 = 0 →
      ∀ t, running true 0 hash (toy_digest [32]) t = 0 := by
    intro hash h0 t
    induction t with
    | zero => rfl
    | succ t ih => rw [running, ih, Nat.mul_zero, accumulate, h0]; rfl
  have hnone : ∀ (hash : List (Fin 256)), 0 < hash.length →
      char_dist true hash (toy_digest [32]) 0 = 0 →
      ∀ fuel, sha256_oracle true toy_digest (fun _ => 0) fuel [32] hash 0 = none := by
    intro hash hlen h0 fuel
    have := oracle_loop_stuck true hash (toy_digest [32]) 0 hlen fuel 0 fun t _ => by
      rw [hrun hash h0 t]; simp
    simp only [sha256_oracle, Option.map_eq_none']
    exact this
  exact ⟨⟨(floor_log_small (by norm_num)).symm, hnone [32] (by decide) (by decide)⟩,
    ⟨(floor_log_small (by norm_num)).symm, hnone [32, 32] (by decide) (by decide)⟩⟩

/-- C15 as amended: the oracle returns, within as many iterations as the target has
characters, for every candidate, every bound and every target of length 0 or at least 3.
For a target of length 1 or 2 the stride is 0, the loop samples position 0 again and
again, and the oracle returns exactly when some running sum exceeds the bound. -/
theorem oracle_returns (sgn : Bool) (digest : List Nat → List (Fin 256))
    (trunc_log : Nat → Nat) (bit : List Nat) (hash : List (Fin 256)) (g : ℚ)
    (hlog : trunc_log hash.length = ⌊Real.log (hash.length : ℝ)⌋₊) :
    ((hash.length = 0 ∨ 3 ≤ hash.length) →
      ∃ r, ∀ fuel, hash.length < fuel →
        sha256_oracle sgn digest trunc_log fuel bit hash g = some (r, digest bit)) ∧
    ((hash.length = 1 ∨ hash.length = 2) →
      ((∃ fuel r, sha256_oracle sgn digest trunc_log fuel bit hash g = some (r, digest bit)) ↔
        ∃ t, 0 < t ∧ g < (running sgn 0 hash (digest bit) t : ℚ))) := by
  constructor
  · rintro (h0 | h3)
    · refine ⟨0, fun fuel hfuel => ?_⟩
      apply sha256_oracle_eq
      obtain ⟨f, rfl⟩ : ∃ f, fuel = f + 1 := ⟨fuel - 1, by omega⟩
      rw [oracle_loop, if_neg (by omega)]
    · have hs : 1 ≤ trunc_log hash.length := by rw [hlog]; exact one_le_floor_log h3
      have hN := samples_le hs hash.length
      obtain ⟨r, hr, -, -⟩ := oracle_entry sgn hs hash (digest bit) g
      exact ⟨r, fun fuel hfuel => sha256_oracle_eq _ _ _ _ _ _ _ (hr fuel (by omega))⟩
  · intro h12
    have hs : trunc_log hash.length = 0 := by
      rw [hlog]; exact floor_log_small (by omega)
    have hlen : 0 < hash.length := by omega
    constructor
    · rintro ⟨fuel, r, hret⟩
      by_contra hnone
      push_neg at hnone
      have hstuck := oracle_loop_stuck sgn hash (digest bit) g hlen fuel 0 fun t ht =>
        hnone t ht
      simp only [sha256_oracle, hs] at hret
      rw [show running sgn 0 hash (digest bit) 0 = 0 from rfl] at hstuck
      rw [hstuck] at hret
      simp at hret
    · rintro ⟨t, ht, hgt⟩
      obtain ⟨t', a, -, c, hbelow⟩ :=
        exists_first_exceed (f := fun t => (running sgn 0 hash (digest bit) t : ℚ))
          ⟨t, ht, le_rfl, hgt⟩
      obtain ⟨m, rfl⟩ : ∃ m, t' = 0 + m + 1 := ⟨t' - 1, by omega⟩
      refine ⟨m + 1 + 0, running sgn 0 hash (digest bit) (0 + m + 1), ?_⟩
      apply sha256_oracle_eq
      rw [hs]
      exact oracle_loop_stride_zero sgn hash (digest bit) g hlen m 0 c
        (fun u h1 h2 => hbelow u h1 h2) 0

/-- Witness of C15 as amended: a 64-character target under the bound 5. -/
theorem oracle_returns_witness :
    ((toy_digest [32]).length = 0 ∨ 3 ≤ (toy_digest [32]).length →
      ∃ r, ∀ fuel, (toy_digest [32]).length < fuel →
        sha256_oracle true toy_digest (fun _ => 4) fuel [33] (toy_digest [32]) 5 =
          some (r, toy_digest [33])) ∧
    ((toy_digest [32]).length = 1 ∨ (toy_digest [32]).length = 2 →
      ((∃ fuel r, sha256_oracle true toy_digest (fun _ => 4) fuel [33] (toy_digest [32]) 5 =
          some (r, toy_digest [33])) ↔
        ∃ t, 0 < t ∧ (5 : ℚ) < (running true 0 (toy_digest [32]) (toy_digest [33]) t : ℚ))) :=
  oracle_returns true toy_digest (fun _ => 4) [33] (toy_digest [32]) 5
    (by rw [show (toy_digest [32]).length = 64 from rfl]; exact_mod_cast floor_log_64.symm)

/-! ## Reading a list after an update -/

theorem getD_set_eq {α : Type} (l : List α) (i j : Nat) (a d : α) :
    (l.set i a).getD j d = if i = j ∧ i < l.length then a else l.getD j d := by
  rw [List.getD_eq_getElem?_getD, List.getD_eq_getElem?_getD, List.getElem?_set]
  by_cases hij : i = j
  · subst hij
    by_cases hi : i < l.length
    · simp [hi]
    · have : l[i]? = none := List.getElem?_eq_none (by omega)
      simp [hi, this]
  · simp [hij]

/-! ## A score of zero -/

theorem promote_inj (sgn : Bool) {c d : Fin 256} (h : promote sgn c = promote sgn d) : c = d := by
  have hc := c.isLt
  have hd := d.isLt
  unfold promote at h
  apply Fin.ext
  cases sgn
  · simp only [Bool.false_eq_true, false_and, if_false] at h
    omega
  · simp only [true_and] at h
    split at h <;> split at h <;> omega

theorem char_dist_eq_zero_iff (sgn : Bool) (hash hash_hex_str : List (Fin 256)) (i : Nat) :
    char_dist sgn hash hash_hex_str i = 0 ↔ char_at hash i = char_at hash_hex_str i := by
  unfold char_dist
  rw [Int.natAbs_eq_zero, sub_eq_zero]
  exact ⟨fun h => promote_inj sgn h, fun h => by rw [h]⟩

/-- For a 64-character target and a bound that is not negative, the oracle
returns a value that is 0 exactly when the sixteen sampled characters agree. -/
theorem oracle_zero_of_64 (sgn : Bool) (digest : List Nat → List (Fin 256))
    (trunc_log : Nat → Nat) (bit : List Nat) (hash : List (Fin 256)) (g : ℚ)
    (hlen : hash.length = 64)
    (hs : trunc_log hash.length = 4)
    (hg : 0 ≤ g) :
    ∃ r, (∀ fuel, 16 < fuel →
        sha256_oracle sgn digest trunc_log fuel bit hash g = some (r, digest bit)) ∧
      (r = 0 ↔ ∀ k, k < 16 → char_at hash (4 * k) = char_at (digest bit) (4 * k)) := by
  have hN : samples 4 hash.length = 16 := by rw [hlen]; rfl
  have hsum : ∀ m, m ≤ 16 → running sgn 4 hash (digest bit) m =
      ∑ k in Finset.range m, char_dist sgn hash (digest bit) (4 * k) := by
    intro m hm
    rw [(running_eq_sum sgn 4 hash (digest bit) m (by omega)).1]
    exact Finset.sum_congr rfl fun k _ => by rw [Nat.mul_comm]
  obtain ⟨r, hr, hfull, hfirst⟩ := oracle_entry sgn (show 1 ≤ 4 by norm_num) hash (digest bit) g
  rw [hN] at hr hfull hfirst
  refine ⟨r, fun fuel hfuel => ?_, ?_, ?_⟩
  · apply sha256_oracle_eq
    rw [hs]
    exact hr fuel hfuel
  · intro hr0
    by_cases hall : ∀ t, 0 < t → t ≤ 16 → (running sgn 4 hash (digest bit) t : ℚ) ≤ g
    · have hS := hfull hall
      rw [full_distance, hN, hsum 16 le_rfl, hr0] at hS
      intro k hk
      rw [← char_dist_eq_zero_iff sgn]
      exact (Finset.sum_eq_zero_iff.1 hS.symm) k (Finset.mem_range.2 hk)
    · push_neg at hall
      obtain ⟨t, a, b, c, hbelow⟩ := exists_first_exceed hall
      have hrt := hfirst t a b c hbelow
      rw [← hrt, hr0] at c
      exact absurd c (not_lt.2 (by exact_mod_cast hg))
  · intro hagree
    have hzero : ∀ t, t ≤ 16 → running sgn 4 hash (digest bit) t = 0 := by
      intro t ht
      rw [hsum t ht]
      apply Finset.sum_eq_zero
      intro k hk
      rw [char_dist_eq_zero_iff]
      exact hagree k (by have := Finset.mem_range.1 hk; omega)
    rw [hfull fun t _ ht => by rw [hzero t ht]; exact_mod_cast hg, full_distance, hN,
      hzero 16 le_rfl]

theorem fin_succ_ne (c : Fin 256) : c + 1 ≠ c := by
  intro h
  have hv := congrArg Fin.val h
  rw [Fin.val_add] at hv
  have h1 : ((1 : Fin 256) : Nat) = 1 := rfl
  rw [h1] at hv
  have := c.isLt
  omega

/-- C18: for a 64-character target and a bound `g ≥ 0` the oracle returns (with any fuel
above 16) a value that is 0 if and only if the target and the candidate's digest string
agree at each of the positions `0, 4, ..., 60`.  So a score of 0 does not imply that the
digest equals the target: when the digest string has 64 characters, the target that
differs from it only at position 1 still scores 0. -/
theorem zero_score_iff_sampled (sgn : Bool) (digest : List Nat → List (Fin 256))
    (trunc_log : Nat → Nat) (bit : List Nat) (hash : List (Fin 256)) (g : ℚ)
    (hlen : hash.length = 64)
    (hlog : trunc_log hash.length = ⌊Real.log (hash.length : ℝ)⌋₊)
    (hg : 0 ≤ g) :
    (∃ r, (∀ fuel, 16 < fuel →
        sha256_oracle sgn digest trunc_log fuel bit hash g = some (r, digest bit)) ∧
      (r = 0 ↔ ∀ k, k < 16 → char_at hash (4 * k) = char_at (digest bit) (4 * k))) ∧
    ((digest bit).length = 64 →
      ∃ target : List (Fin 256), target.length = 64 ∧
        char_at target 1 ≠ char_at (digest bit) 1 ∧ target ≠ digest bit ∧
        ∀ fuel, 16 < fuel →
          sha256_oracle sgn digest trunc_log fuel bit target g = some (0, digest bit)) := by
  have hs : trunc_log hash.length = 4 := by
    rw [hlog, hlen]
    exact_mod_cast floor_log_64
  refine ⟨oracle_zero_of_64 sgn digest trunc_log bit hash g hlen hs hg, ?_⟩
  intro hdlen
  have htlen : ((digest bit).set 1 (char_at (digest bit) 1 + 1)).length = 64 := by
    rw [List.length_set, hdlen]
  have hat1 : char_at ((digest bit).set 1 (char_at (digest bit) 1 + 1)) 1 ≠
      char_at (digest bit) 1 := by
    unfold char_at
    rw [getD_set_eq, if_pos ⟨rfl, by omega⟩]
    exact fin_succ_ne _
  refine ⟨(digest bit).set 1 (char_at (digest bit) 1 + 1), htlen, hat1, ?_, ?_⟩
  · intro heq
    rw [heq] at hat1
    exact hat1 rfl
  · obtain ⟨r, hr, hiff⟩ := oracle_zero_of_64 sgn digest trunc_log bit
      ((digest bit).set 1 (char_at (digest bit) 1 + 1)) g htlen
      (by rw [htlen, ← hlen]; exact hs) hg
    have hr0 : r = 0 := by
      apply hiff.2
      intro k _
      unfold char_at
      rw [getD_set_eq, if_neg (by omega)]
    rw [← hr0]
    exact hr

/-- Witness of C18: the target of 64 exclamation marks against a digest of 64 exclamation
marks, under the bound 0. -/
theorem zero_score_iff_sampled_witness :
    (toy_digest [33]).length = 64 ∧ (0 : ℚ) ≤ 0 ∧
    ((∃ r, (∀ fuel, 16 < fuel →
        sha256_oracle true toy_digest (fun _ => 4) fuel [33] (toy_digest [33]) 0 =
          some (r, toy_digest [33])) ∧
      (r = 0 ↔ ∀ k, k < 16 →
        char_at (toy_digest [33]) (4 * k) = char_at (toy_digest [33]) (4 * k))) ∧
    ((toy_digest [33]).length = 64 →
      ∃ target : List (Fin 256), target.length = 64 ∧
        char_at target 1 ≠ char_at (toy_digest [33]) 1 ∧ target ≠ toy_digest [33] ∧
        ∀ fuel, 16 < fuel →
          sha256_oracle true toy_digest (fun _ => 4) fuel [33] target 0 =
            some (0, toy_digest [33]))) :=
  ⟨rfl, le_rfl, zero_score_iff_sampled true toy_digest (fun _ => 4) [33] (toy_digest [33]) 0 rfl
    (by rw [show (toy_digest [33]).length = 64 from rfl]; exact_mod_cast floor_log_64.symm)
    le_rfl⟩

/-! ## The candidate along a run of the driver -/

theorem step_printable {i j : Nat} {bit : List Nat} (hi : i < bit.length) (hj : j < bit.length)
    (h : printable bit) : printable (step i j bit) :=
  step_loop_printable _ _ bit (max_lt hi hj) h

theorem orbit_inner_printable (db : Finset Nat) (i : Nat) (js : List Nat) :
    ∀ bit : List Nat, i < bit.length → (∀ j ∈ js, j < bit.length) → printable bit →
      printable (orbit_inner i js bit db).2.1 := by
  induction js with
  | nil => intro bit _ _ h; exact h
  | cons j js ih =>
    intro bit hi hjs h
    by_cases hk : hashing bit ∈ db
    · rw [orbit_inner, claim_present hk]
      exact ih (step i j bit) (by rwa [step_length])
        (fun j' hj' => by rw [step_length]; exact hjs j' (List.mem_cons_of_mem _ hj'))
        (step_printable hi (hjs j (List.mem_cons_self _ _)) h)
    · rw [orbit_inner, claim_absent hk]
      exact h

theorem orbit_outer_printable (is : List Nat) :
    ∀ (bit : List Nat) (db : Finset Nat), (∀ i ∈ is, i < bit.length) → printable bit →
      (orbit_outer is bit db).2.1.length = bit.length ∧
        printable (orbit_outer is bit db).2.1 := by
  induction is with
  | nil => intro bit db _ h; exact ⟨rfl, h⟩
  | cons i is ih =>
    intro bit db his h
    have hlen := orbit_inner_length i (List.range bit.length) bit db
    have hpr := orbit_inner_printable db i (List.range bit.length) bit
      (his i (List.mem_cons_self _ _)) (fun j hj => List.mem_range.1 hj) h
    rw [orbit_outer]
    rcases hr : orbit_inner i (List.range bit.length) bit db with ⟨ok, b, d⟩
    rw [hr] at hlen hpr
    simp only at hlen hpr
    cases ok with
    | true => exact ⟨hlen, hpr⟩
    | false =>
      have := ih b d (fun i' hi' => by rw [hlen]; exact his i' (List.mem_cons_of_mem _ hi')) hpr
      show (orbit_outer is b d).2.1.length = bit.length ∧ printable (orbit_outer is b d).2.1
      exact ⟨by rw [this.1, hlen], this.2⟩

/-- The orbit generator keeps the candidate's length and printable range. -/
theorem next_orbit_printable (bit : List Nat) (db : Finset Nat) (h : printable bit) :
    (next_orbit bit db).2.1.length = bit.length ∧ printable (next_orbit bit db).2.1 :=
  orbit_outer_printable (List.range bit.length) bit db (fun _ hi => List.mem_range.1 hi) h

theorem hess_init_well_formed (n : Nat) : well_formed n (hess_init n) := by
  refine ⟨by simp [hess_init], ?_, ?_⟩
  · intro x hx
    have : x = 32 := List.eq_of_mem_replicate hx
    subst this
    exact ⟨le_rfl, by decide⟩
  · intro i j h; cases h

theorem next_pair_bound {n i j i' j' : Nat} (hi : i < n)
    (h : next_pair n i j = Phase.exploring i' j') : i' < n ∧ j' < n := by
  unfold next_pair at h
  split at h
  · cases h; exact ⟨hi, by assumption⟩
  · split at h
    · cases h; exact ⟨by assumption, by omega⟩
    · cases h

theorem hess_step_well_formed (sgn : Bool) (digest : List Nat → List (Fin 256))
    (trunc_log : Nat → Nat) (hash : List (Fin 256)) (n id fuel : Nat) (w w' : Worker)
    (db db' : Finset Nat)
    (h : hess_step sgn digest trunc_log hash n id fuel w db = some (w', db'))
    (hw : well_formed n w) : well_formed n w' := by
  obtain ⟨hlen, hpr, hph⟩ := hw
  rcases hess_step_cases _ _ _ _ _ _ _ _ _ _ _ h with
    ⟨-, hb, -, -, -, hp⟩ | ⟨i, j, hp, hpe, -⟩ | ⟨-, rfl, -⟩
  · have hno := next_orbit_printable w.bit db hpr
    rw [← hb] at hno
    refine ⟨by rw [hno.1, hlen], hno.2, ?_⟩
    intro i j hij
    rw [hp] at hij
    split at hij
    · split at hij
      · cases hij
        rw [hno.1, hlen]
        exact ⟨by assumption, by assumption⟩
      · cases hij
    · cases hij
  · obtain ⟨hi, hj⟩ := hph i j hp
    obtain ⟨loc, -, -, hb, -, -, hlt, hge⟩ := pair_eval_some _ _ _ _ _ _ _ _ _ _ _ hpe
    have hlen' : w'.bit.length = n := by rw [hb, step_length, hlen]
    refine ⟨hlen', by rw [hb]; exact step_printable hi hj hpr, ?_⟩
    intro i' j' hij
    rw [hlen']
    by_cases hc : loc < w.cursor
    · rw [(hlt hc).2.2] at hij
      split at hij
      · cases hij
      · exact next_pair_bound (by omega) hij
    · rw [(hge hc).2.2] at hij
      exact next_pair_bound (by omega) hij
  · exact ⟨hlen, hpr, hph⟩

theorem call_step_printable (c : Call) (db : Finset Nat) (h : printable c.bit) :
    (call_step c db).2.1.bit.length = c.bit.length ∧ printable (call_step c db).2.1.bit ∧
      ((call_step c db).2.1.bit ≠ c.bit → c.i < c.bit.length ∧ c.j < c.bit.length) := by
  by_cases hi : c.i < c.bit.length
  · by_cases hj : c.j < c.bit.length
    · by_cases hk : hashing c.bit ∈ db
      · have heq : call_step c db =
            (none, { c with j := c.j + 1, bit := step c.i c.j c.bit }, db) := by
          simp [call_step, hi, hj, claim_present hk]
        rw [heq]
        exact ⟨step_length _ _ _, step_printable hi hj h, fun _ => ⟨hi, hj⟩⟩
      · have heq : call_step c db = (some true, c, insert (hashing c.bit) db) := by
          simp [call_step, hi, hj, claim_absent hk]
        rw [heq]
        exact ⟨rfl, h, fun hne => absurd rfl hne⟩
    · have heq : call_step c db = (none, { c with i := c.i + 1, j := 0 }, db) := by
        simp [call_step, hi, hj]
      rw [heq]
      exact ⟨rfl, h, fun hne => absurd rfl hne⟩
  · have heq : call_step c db = (some false, c, db) := by
      simp [call_step, hi]
    rw [heq]
    exact ⟨rfl, h, fun hne => absurd rfl hne⟩

/-- C16: in every state of a run of one worker's `hess` with candidate length `n` (other
workers may add fingerprints in between) the candidate has length `n`, every byte lies in
`[32, 127)`, and a pair about to be given to `step` lies within the candidate's bounds.
Inside a `next_orbit` call, whatever the table holds at each critical section, a step of
the call keeps length and range and changes the candidate only at a pair within bounds. -/
theorem candidate_well_formed (sgn : Bool) (digest : List Nat → List (Fin 256))
    (trunc_log : Nat → Nat) (hash : List (Fin 256)) (n id : Nat) :
    (∀ (w : Worker) (db : Finset Nat), Reachable sgn digest trunc_log hash n id w db →
      w.bit.length = n ∧ (∀ x ∈ w.bit, 32 ≤ x ∧ x < 127) ∧
      ∀ i j, w.phase = Phase.exploring i j → i < w.bit.length ∧ j < w.bit.length) ∧
    (∀ (c : Call) (db : Finset Nat), (∀ x ∈ c.bit, 32 ≤ x ∧ x < 127) →
      (call_step c db).2.1.bit.length = c.bit.length ∧
      (∀ x ∈ (call_step c db).2.1.bit, 32 ≤ x ∧ x < 127) ∧
      ((call_step c db).2.1.bit ≠ c.bit → c.i < c.bit.length ∧ c.j < c.bit.length)) := by
  refine ⟨?_, fun c db h => call_step_printable c db h⟩
  intro w db hreach
  induction hreach with
  | start db => exact hess_init_well_formed n
  | move fuel _ hstep ih => exact hess_step_well_formed _ _ _ _ _ _ _ _ _ _ _ hstep ih
  | others _ _ ih => exact ih

/-! ## Reading a candidate after a swap and after a midpoint update -/

theorem ext_getD {l1 l2 : List Nat} (hl : l1.length = l2.length)
    (h : ∀ p, p < l1.length → l1.getD p 0 = l2.getD p 0) : l1 = l2 :=
  List.ext_getElem hl fun n h1 h2 => by
    have := h n h1
    rwa [List.getD_eq_getElem _ _ h1, List.getD_eq_getElem _ _ h2] at this

theorem getD_swap {a b : Nat} {bit : List Nat} (ha : a < bit.length) (hb : b < bit.length)
    (p : Nat) :
    (swap a b bit).getD p 0 =
      if p = b then bit.getD a 0 else if p = a then bit.getD b 0 else bit.getD p 0 := by
  unfold swap
  rw [getD_set_eq, getD_set_eq, List.length_set]
  by_cases hpb : p = b
  · rw [if_pos ⟨hpb.symm, hb⟩, if_pos hpb]
  · rw [if_neg (fun h => hpb h.1.symm), if_neg hpb]
    by_cases hpa : p = a
    · rw [if_pos ⟨hpa.symm, ha⟩, if_pos hpa]
    · rw [if_neg (fun h => hpa h.1.symm), if_neg hpa]

theorem getD_bump {m : Nat} {bit : List Nat} (hm : m < bit.length) (p : Nat) :
    (bump m bit).getD p 0 = if p = m then perturb (bit.getD m 0) else bit.getD p 0 := by
  unfold bump
  rw [getD_set_eq]
  have hlt : (bit.getD m 0 + 1) % (base - 32) < 95 := Nat.mod_lt _ (by decide)
  by_cases hpm : p = m
  · rw [if_pos ⟨hpm.symm, hm⟩, if_pos hpm]
    unfold perturb
    simp only [base] at hlt ⊢
    omega
  · rw [if_neg (fun h => hpm h.1.symm), if_neg hpm]

/-! ## The local transform is one-to-one on printable candidates -/

theorem swap_swap {a b : Nat} {bit : List Nat} (ha : a < bit.length) (hb : b < bit.length) :
    swap a b (swap a b bit) = bit := by
  apply ext_getD (by rw [swap_length, swap_length])
  intro p _
  rw [getD_swap (by rwa [swap_length]) (by rwa [swap_length]), getD_swap ha hb,
    getD_swap ha hb, getD_swap ha hb]
  by_cases hpb : p = b
  · subst hpb
    by_cases hab : a = p
    · subst hab; simp
    · simp [hab]
  · by_cases hpa : p = a
    · subst hpa
      simp [hpb]
    · simp [hpb, hpa]

theorem perturb_inj {v w : Nat} (hv : 32 ≤ v ∧ v < 127) (hw : 32 ≤ w ∧ w < 127)
    (h : perturb v = perturb w) : v = w := by
  unfold perturb at h
  omega

theorem bump_inj {m : Nat} {l1 l2 : List Nat} (hl : l1.length = l2.length)
    (hm : m < l1.length) (h1 : printable l1) (h2 : printable l2)
    (h : bump m l1 = bump m l2) : l1 = l2 := by
  apply ext_getD hl
  intro p hp
  have hp' := congrArg (fun l => l.getD p 0) h
  simp only at hp'
  rw [getD_bump hm, getD_bump (by omega)] at hp'
  by_cases hpm : p = m
  · subst hpm
    rw [if_pos rfl, if_pos rfl] at hp'
    have e1 : l1.getD p 0 = l1[p] := List.getD_eq_getElem _ _ hp
    have e2 : l2.getD p 0 = l2[p] := List.getD_eq_getElem _ _ (by omega)
    rw [e1, e2] at hp' ⊢
    exact perturb_inj (h1 _ (List.getElem_mem hp)) (h2 _ (List.getElem_mem (by omega))) hp'
  · rwa [if_neg hpm, if_neg hpm] at hp'

theorem step_loop_inj (b : Nat) :
    ∀ (a : Nat) (l1 l2 : List Nat), l1.length = l2.length → b < l1.length →
      printable l1 → printable l2 → step_loop a b l1 = step_loop a b l2 → l1 = l2 := by
  induction b with
  | zero => intro a l1 l2 _ _ _ _ h; simpa [step_loop] using h
  | succ b ih =>
    intro a l1 l2 hl hb h1 h2 h
    simp only [step_loop] at h
    by_cases hab : a < b + 1
    · rw [if_pos hab, if_pos hab] at h
      have hb2 : b + 1 < l2.length := by omega
      have ha1 : a < l1.length := by omega
      have ha2 : a < l2.length := by omega
      have hm1 : (a + (b + 1)) / 2 < (swap a (b + 1) l1).length := by
        rw [swap_length]; omega
      have hbump := ih (a + 1) _ _
        (by rw [bump_length, bump_length, swap_length, swap_length, hl])
        (by rw [bump_length, swap_length]; omega)
        (bump_printable (swap_printable ha1 hb h1))
        (bump_printable (swap_printable ha2 hb2 h2)) h
      have hswap := bump_inj (by rw [swap_length, swap_length, hl]) hm1
        (swap_printable ha1 hb h1) (swap_printable ha2 hb2 h2) hbump
      rw [← swap_swap ha1 hb, hswap, swap_swap ha2 hb2]
    · rwa [if_neg hab, if_neg hab] at h

theorem candidates_finite (L : Nat) : (candidates L).Finite := by
  apply Set.Finite.subset ((List.finite_length_eq (Fin 127) L).image (List.map Fin.val))
  intro c hc
  refine ⟨c.pmap (fun x (hx : x < 127) => (⟨x, hx⟩ : Fin 127)) (fun x hx => (hc.2 x hx).2),
    ?_, ?_⟩
  · show (c.pmap _ _).length = L
    rw [List.length_pmap]
    exact hc.1
  · rw [List.map_pmap]
    simp

theorem step_inj_on (L i j : Nat) (hi : i < L) (hj : j < L) :
    Set.InjOn (step i j) (candidates L) := by
  intro c1 h1 c2 h2 h
  exact step_loop_inj (max i j) (min i j) c1 c2 (by rw [h1.1, h2.1])
    (by rw [h1.1]; exact max_lt hi hj) h1.2 h2.2 h

theorem step_maps_to (L i j : Nat) (hi : i < L) (hj : j < L) :
    Set.MapsTo (step i j) (candidates L) (candidates L) := by
  intro c hc
  exact ⟨by rw [step_length]; exact hc.1,
    step_printable (by rw [hc.1]; exact hi) (by rw [hc.1]; exact hj) hc.2⟩

/-- C17: for indices `i`, `j` below `L`, `step i j` is injective on the candidates of length
`L` whose bytes all lie in `[32, 127)`: two distinct such candidates never have the same
image.  It maps that finite set to itself, hence permutes it; the midpoint map
`v ↦ 32 + (v + 1) mod 95` is a bijection of `[32, 127)`. -/
theorem step_permutes (L i j : Nat) (hi : i < L) (hj : j < L) :
    (∀ c1 c2 : List Nat, c1 ∈ candidates L → c2 ∈ candidates L → c1 ≠ c2 →
      step i j c1 ≠ step i j c2) ∧
    Set.BijOn (step i j) (candidates L) (candidates L) ∧
    Set.BijOn perturb (Set.Ico 32 127) (Set.Ico 32 127) := by
  refine ⟨?_, ?_, ?_⟩
  · intro c1 c2 h1 h2 hne heq
    exact hne (step_inj_on L i j hi hj h1 h2 heq)
  · exact ((candidates_finite L).injOn_iff_bijOn_of_mapsTo (step_maps_to L i j hi hj)).1
      (step_inj_on L i j hi hj)
  · have hmaps : Set.MapsTo perturb (Set.Ico 32 127) (Set.Ico 32 127) := by
      intro v _
      have : (v + 1) % 95 < 95 := Nat.mod_lt _ (by decide)
      simp only [Set.mem_Ico, perturb]
      omega
    exact ((Set.finite_Ico 32 127).injOn_iff_bijOn_of_mapsTo hmaps).1
      fun v hv w hw h => perturb_inj (Set.mem_Ico.1 hv) (Set.mem_Ico.1 hw) h

/-- Witness of C17: the pair `(0, 1)` on candidates of length 2. -/
theorem step_permutes_witness :
    (∀ c1 c2 : List Nat, c1 ∈ candidates 2 → c2 ∈ candidates 2 → c1 ≠ c2 →
      step 0 1 c1 ≠ step 0 1 c2) ∧
    Set.BijOn (step 0 1) (candidates 2) (candidates 2) ∧
    Set.BijOn perturb (Set.Ico 32 127) (Set.Ico 32 127) :=
  step_permutes 2 0 1 (by decide) (by decide)

/-! ## The closed form of the local transform -/

theorem reversed_between_self (a : Nat) (bit : List Nat) : reversed_between a a bit bit := by
  refine ⟨fun _ _ => rfl, ?_, ?_, ?_⟩
  · intro p h1 h2 h3
    exact absurd (show p = (a + a) / 2 by omega) h3
  · intro _
    rw [show (a - a + 1) / 2 = 0 by omega]
    rfl
  · intro h
    omega

/-- The first round of the loop, `swap` then the midpoint update, read at
every position. -/
theorem getD_first_round {a b : Nat} {bit : List Nat} (hab : a < b) (hb : b < bit.length) :
    (∀ p, p ≠ (a + b) / 2 → p ≠ a → p ≠ b →
      (bump ((a + b) / 2) (swap a b bit)).getD p 0 = bit.getD p 0) ∧
    (a ≠ (a + b) / 2 → (bump ((a + b) / 2) (swap a b bit)).getD a 0 = bit.getD b 0) ∧
    ((bump ((a + b) / 2) (swap a b bit)).getD b 0 = bit.getD a 0) ∧
    (a ≠ (a + b) / 2 →
      (bump ((a + b) / 2) (swap a b bit)).getD ((a + b) / 2) 0 =
        perturb (bit.getD ((a + b) / 2) 0)) ∧
    (a = (a + b) / 2 →
      (bump ((a + b) / 2) (swap a b bit)).getD a 0 = perturb (bit.getD b 0)) := by
  have ha : a < bit.length := by omega
  have hm : (a + b) / 2 < (swap a b bit).length := by rw [swap_length]; omega
  have hmb : (a + b) / 2 ≠ b := by omega
  refine ⟨?_, ?_, ?_, ?_, ?_⟩
  · intro p h1 h2 h3
    rw [getD_bump hm, if_neg h1, getD_swap ha hb, if_neg h3, if_neg h2]
  · intro h
    rw [getD_bump hm, if_neg h, getD_swap ha hb, if_neg (by omega), if_pos rfl]
  · rw [getD_bump hm, if_neg (Ne.symm hmb), getD_swap ha hb, if_pos rfl]
  · intro h
    rw [getD_bump hm, if_pos rfl, getD_swap ha hb, if_neg hmb, if_neg (Ne.symm h)]
  · intro h
    rw [getD_bump hm, if_pos h, getD_swap ha hb, if_neg hmb, if_pos h.symm]

/-- The loop of `step` from `a ≤ b`, `b` within bounds, has the closed form
`reversed_between`. -/
theorem step_loop_form (b : Nat) :
    ∀ (a : Nat) (bit : List Nat), a ≤ b → b < bit.length →
      reversed_between a b bit (step_loop a b bit) := by
  induction b with
  | zero =>
    intro a bit ha _
    have : a = 0 := by omega
    subst this
    rw [step_loop_stop le_rfl]
    exact reversed_between_self 0 bit
  | succ b ih =>
    intro a bit hab hb
    rcases Nat.eq_or_lt_of_le hab with heq | hlt
    · subst heq
      rw [step_loop_stop le_rfl]
      exact reversed_between_self _ bit
    · rw [step_loop, if_pos hlt]
      obtain ⟨f1, f2, f3, f4, f5⟩ := getD_first_round hlt hb
      rcases Nat.eq_or_lt_of_le (Nat.lt_succ_iff.1 hlt) with hab' | hab'
      · subst hab'
        rw [step_loop_stop (Nat.le_succ a)]
        have hm : (a + (a + 1)) / 2 = a := by omega
        rw [hm] at f1 f2 f3 f4 f5
        unfold reversed_between
        rw [hm]
        refine ⟨?_, ?_, ?_, ?_⟩
        · intro p hp
          exact f1 p (by omega) (by omega) (by omega)
        · intro p h1 h2 h3 h4
          have := h4 (by omega)
          omega
        · intro h
          omega
        · intro _
          refine ⟨f5 rfl, ?_⟩
          rw [show (a + 1 - a + 1) / 2 - 1 = 0 by omega]
          exact f3
      · have IH := ih (a + 1) (bump ((a + (b + 1)) / 2) (swap a (b + 1) bit)) (by omega)
          (by rw [bump_length, swap_length]; omega)
        unfold reversed_between at IH ⊢
        have hm : (a + 1 + b) / 2 = (a + (b + 1)) / 2 := by omega
        have hd : (b - (a + 1)) % 2 = (b + 1 - a) % 2 := by omega
        rw [hm, hd] at IH
        obtain ⟨I1, I2, I3, I4⟩ := IH
        have ham : a ≠ (a + (b + 1)) / 2 := by omega
        refine ⟨?_, ?_, ?_, ?_⟩
        · intro p hp
          rw [I1 p (by omega)]
          exact f1 p (by omega) (by omega) (by omega)
        · intro p h1 h2 h3 h4
          rcases Nat.eq_or_lt_of_le h1 with hpa | hpa
          · subst hpa
            rw [I1 a (by omega), f2 ham, show a + (b + 1) - a = b + 1 by omega]
          · rcases Nat.eq_or_lt_of_le h2 with hpb | hpb
            · subst hpb
              rw [I1 (b + 1) (by omega), f3, show a + (b + 1) - (b + 1) = a by omega]
            · have hq : a + 1 + b - p ≠ (a + (b + 1)) / 2 := by
                rcases Nat.mod_two_eq_zero_or_one (b + 1 - a) with hpar | hpar
                · omega
                · have := h4 hpar
                  omega
              rw [I2 p (by omega) (by omega) h3 h4, f1 _ hq (by omega) (by omega),
                show a + 1 + b - p = a + (b + 1) - p by omega]
        · intro hpar
          rw [I3 hpar, f4 ham,
            show (b + 1 - a + 1) / 2 = (b - (a + 1) + 1) / 2 + 1 by omega,
            Function.iterate_succ_apply]
        · intro hpar
          obtain ⟨J1, J2⟩ := I4 hpar
          refine ⟨?_, ?_⟩
          · rw [J1, f1 _ (by omega) (by omega) (by omega)]
          · rw [J2, f4 ham,
              show (b + 1 - a + 1) / 2 - 1 = ((b - (a + 1) + 1) / 2 - 1) + 1 by omega,
              Function.iterate_succ_apply]

/-- C14: closed form of `step`.  For in-bounds `i`, `j`, with `a = min i j`, `b = max i j`,
`m = (a + b) / 2`, `k = (b - a + 1) / 2` (the ceiling of `(b - a) / 2`) and `perturb` the
map `v ↦ 32 + (v + 1) mod 95`, the result `r = step i j c` has the length of `c` and:
`r[p] = c[p]` outside `[a, b]`; `r[p] = c[a + b - p]` inside `[a, b]` except at `m` and,
when `b - a` is odd, `m + 1`; if `b - a` is even, `r[m]` is `perturb` applied `k` times to
`c[m]`; if `b - a` is odd, `r[m] = perturb c[m + 1]` and `r[m + 1]` is `perturb` applied
`k - 1` times to `c[m]`. -/
theorem step_closed_form (c : List Nat) (i j a b m k : Nat) (hi : i < c.length)
    (hj : j < c.length) (ha : a = min i j) (hb : b = max i j) (hm : m = (a + b) / 2)
    (hk : k = (b - a + 1) / 2) :
    (step i j c).length = c.length ∧
    (∀ p, p < a ∨ b < p → (step i j c).getD p 0 = c.getD p 0) ∧
    (∀ p, a ≤ p → p ≤ b → p ≠ m → ((b - a) % 2 = 1 → p ≠ m + 1) →
      (step i j c).getD p 0 = c.getD (a + b - p) 0) ∧
    ((b - a) % 2 = 0 → (step i j c).getD m 0 = perturb^[k] (c.getD m 0)) ∧
    ((b - a) % 2 = 1 →
      (step i j c).getD m 0 = perturb (c.getD (m + 1) 0) ∧
      (step i j c).getD (m + 1) 0 = perturb^[k - 1] (c.getD m 0)) := by
  subst ha hb hm hk
  have h := step_loop_form (max i j) (min i j) c min_le_max (max_lt hi hj)
  exact ⟨step_length i j c, h.1, h.2.1, h.2.2.1, h.2.2.2⟩

/-- Witness of C14: the pair `(4, 0)` on a candidate of five bytes; the ends are reversed
and the midpoint byte 60 has been perturbed twice, to 126. -/
theorem step_closed_form_witness :
    (step 4 0 [40, 50, 60, 70, 80]).length = [40, 50, 60, 70, 80].length ∧
    (∀ p, p < 0 ∨ 4 < p →
      (step 4 0 [40, 50, 60, 70, 80]).getD p 0 = [40, 50, 60, 70, 80].getD p 0) ∧
    (∀ p, 0 ≤ p → p ≤ 4 → p ≠ 2 → ((4 - 0) % 2 = 1 → p ≠ 2 + 1) →
      (step 4 0 [40, 50, 60, 70, 80]).getD p 0 = [40, 50, 60, 70, 80].getD (0 + 4 - p) 0) ∧
    ((4 - 0) % 2 = 0 →
      (step 4 0 [40, 50, 60, 70, 80]).getD 2 0 = perturb^[2] ([40, 50, 60, 70, 80].getD 2 0)) ∧
    ((4 - 0) % 2 = 1 →
      (step 4 0 [40, 50, 60, 70, 80]).getD 2 0 = perturb ([40, 50, 60, 70, 80].getD (2 + 1) 0) ∧
      (step 4 0 [40, 50, 60, 70, 80]).getD (2 + 1) 0 =
        perturb^[2 - 1] ([40, 50, 60, 70, 80].getD 2 0)) :=
  step_closed_form [40, 50, 60, 70, 80] 4 0 0 4 2 2 (by decide) (by decide) (by decide)
    (by decide) (by decide) (by decide)

/-- Two evaluations of `step`: an even and an odd distance between the indices. -/
theorem step_examples :
    step 4 0 [40, 50, 60, 70, 80] = [80, 70, 126, 50, 40] ∧
      step 0 3 [40, 50, 60, 70] = [70, 93, 83, 40] := by
  decide

end HessSha256
